import Mathlib

/-!
Verification development for the `ignition-lint` view linter.

The Python sources are shallowly embedded here:
* strings are `List Char` (`Str`), so that every operation the code performs
  (prefix tests, substring tests, splitting, concatenation) is executable and
  amenable to induction;
* JSON documents are the inductive `Json`;
* `flatten_json.py` becomes `flattenJson` / `flattenFields` / `flattenItems`;
* `model/builder.py` becomes `buildModel` and its collector functions;
* the rules under `rules/` are embedded as pure functions from node lists to
  message lists.
-/

namespace IgnitionLint

/-- Strings of the embedded programs: plain character lists. -/
abbrev Str : Type := List Char

/-- Character data of a Lean string literal, as a `Str`. -/
def cs (s : String) : Str := s.data

/-- Decimal rendering of a natural number, as Python `str(n)` does. -/
def natStr (n : Nat) : Str := (Nat.repr n).data

/-- Python `f"{path}.{key}" if path else key`. -/
def dotJoin (path key : Str) : Str :=
  if path = [] then key else path ++ '.' :: key

/-- Python `f"{base_path}[{index}]"` (also covers the empty-base case, where
the result is just `[index]`). -/
def idxPath (base : Str) (i : Nat) : Str :=
  base ++ '[' :: (natStr i ++ [']'])

/-- JSON values, as `json.loads` produces them (numbers restricted to the
integers that appear in view files; floats play no role in the claims). -/
inductive Json : Type where
  | null : Json
  | bool : Bool → Json
  | num : Int → Json
  | str : Str → Json
  | arr : List Json → Json
  | obj : List (Str × Json) → Json

instance : Inhabited Json := ⟨Json.null⟩

mutual

/-- Structural equality test on JSON values. -/
def jsonBEq : Json → Json → Bool
  | .null, .null => true
  | .bool a, .bool b => a == b
  | .num a, .num b => a == b
  | .str a, .str b => a == b
  | .arr a, .arr b => jsonListBEq a b
  | .obj a, .obj b => jsonFieldsBEq a b
  | _, _ => false

/-- Elementwise equality test on JSON arrays. -/
def jsonListBEq : List Json → List Json → Bool
  | [], [] => true
  | a :: as, b :: bs => jsonBEq a b && jsonListBEq as bs
  | _, _ => false

/-- Elementwise equality test on JSON object members. -/
def jsonFieldsBEq : List (Str × Json) → List (Str × Json) → Bool
  | [], [] => true
  | (k, v) :: as, (k', v') :: bs => k == k' && jsonBEq v v' && jsonFieldsBEq as bs
  | _, _ => false

end

mutual

theorem jsonBEq_iff : ∀ (a b : Json), jsonBEq a b = true ↔ a = b
  | .null, b => by cases b <;> simp [jsonBEq]
  | .bool x, b => by cases b <;> simp [jsonBEq]
  | .num x, b => by cases b <;> simp [jsonBEq]
  | .str x, b => by cases b <;> simp [jsonBEq]
  | .arr xs, b => by
    cases b <;> simp [jsonBEq]
    exact jsonListBEq_iff xs _
  | .obj xs, b => by
    cases b <;> simp [jsonBEq]
    exact jsonFieldsBEq_iff xs _

theorem jsonListBEq_iff : ∀ (as bs : List Json), jsonListBEq as bs = true ↔ as = bs
  | [], bs => by cases bs <;> simp [jsonListBEq]
  | a :: as, bs => by
    cases bs with
    | nil => simp [jsonListBEq]
    | cons b bs' =>
      simp [jsonListBEq, Bool.and_eq_true, jsonBEq_iff a b, jsonListBEq_iff as bs']

theorem jsonFieldsBEq_iff :
    ∀ (as bs : List (Str × Json)), jsonFieldsBEq as bs = true ↔ as = bs
  | [], bs => by cases bs <;> simp [jsonFieldsBEq]
  | (k, v) :: as, bs => by
    cases bs with
    | nil => simp [jsonFieldsBEq]
    | cons b bs' =>
      obtain ⟨k', v'⟩ := b
      simp [jsonFieldsBEq, Bool.and_eq_true, jsonBEq_iff v v', jsonFieldsBEq_iff as bs',
        Prod.ext_iff, and_assoc]

end

instance : DecidableEq Json := fun a b => decidable_of_iff _ (jsonBEq_iff a b)

/-- Python truthiness of a parsed JSON value (`if value:`). -/
def Json.truthy : Json → Bool
  | .null => false
  | .bool b => b
  | .num n => n != 0
  | .str s => !s.isEmpty
  | .arr l => !l.isEmpty
  | .obj l => !l.isEmpty

/-- `dict.get(k)`: the value at the first matching key, if any. -/
def getField {α : Type} (fields : List (Str × α)) (k : Str) : Option α :=
  match fields with
  | [] => none
  | (k', v) :: rest => if k' = k then some v else getField rest k

/-- Python `dict`/`OrderedDict` assignment: replace in place when the key
exists, append at the end otherwise. -/
def odInsert {α : Type} (res : List (Str × α)) (k : Str) (v : α) : List (Str × α) :=
  match res with
  | [] => [(k, v)]
  | (k', v') :: rest =>
    if k' = k then (k', v) :: rest else (k', v') :: odInsert rest k v

/-- `data.get('meta', {}).get('name')` of `_get_component_path`, restricted to
the shape the views use: the name counts only when `meta` is an object whose
`name` is a truthy (non-empty) string.  (Python would stringify other truthy
values into the path; no claim involves those.) -/
def componentNameOf (fields : List (Str × Json)) : Option Str :=
  match getField fields (cs "meta") with
  | some (.obj m) =>
    match getField m (cs "name") with
    | some (.str s) => if s.isEmpty then none else some s
    | _ => none
  | _ => none

/-- `_get_component_path`: append the component name to the path when the
object carries a truthy `meta.name`. -/
def getComponentPath (fields : List (Str × Json)) (path : Str) : Str :=
  match componentNameOf fields with
  | some name => dotJoin path name
  | none => path

mutual

/-- Shared body of `_process_dict_item` and `_process_single_item`: objects
recurse through `flatten_json` (so the component name of `cur` is injected
first), arrays iterate with bracketed indices, scalars are stored at `cur`.
(`_process_dict_item` sends an array value to `_process_list_items`, which is
exactly what `flatten_json` does on a list, so one helper covers both.) -/
def processValue : Json → Str → List (Str × Json) → List (Str × Json)
  | .obj fs, cur, res => flattenFields fs (getComponentPath fs cur) res
  | .arr its, cur, res => flattenItems its cur 0 res
  | .null, cur, res => odInsert res cur .null
  | .bool b, cur, res => odInsert res cur (.bool b)
  | .num n, cur, res => odInsert res cur (.num n)
  | .str s, cur, res => odInsert res cur (.str s)

/-- The object loop of `flatten_json`: each key is processed in source order,
threading the accumulated results. -/
def flattenFields : List (Str × Json) → Str → List (Str × Json) → List (Str × Json)
  | [], _, res => res
  | (k, v) :: rest, path, res =>
    flattenFields rest path (processValue v (dotJoin path k) res)

/-- `_process_list_items` / the list loop of `flatten_json`. -/
def flattenItems : List Json → Str → Nat → List (Str × Json) → List (Str × Json)
  | [], _, _, res => res
  | item :: rest, base, i, res =>
    flattenItems rest base (i + 1) (processValue item (idxPath base i) res)

end

/-- `flatten_json(data, path, results)`: dispatch on the top-level value. -/
def flattenJson (j : Json) (path : Str) (res : List (Str × Json)) : List (Str × Json) :=
  match j with
  | .obj fields => flattenFields fields (getComponentPath fields path) res
  | .arr items => flattenItems items path 0 res
  | _ => res

/-- The key sequence of a flattened result. -/
def keysOf (res : List (Str × Json)) : List Str := res.map Prod.fst

/-! ### String predicates used by the embedded code -/

/-- `p` is an initial segment of `s`. -/
def isPref (p s : Str) : Prop := ∃ t, p ++ t = s

/-- Python `s.startswith(p)`. -/
def sStarts (s p : Str) : Bool :=
  match s, p with
  | _, [] => true
  | [], _ :: _ => false
  | c :: s', d :: p' => c == d && sStarts s' p'

/-- Python `sub in s` (substring containment). -/
def sHas (s sub : Str) : Bool :=
  if sStarts s sub then true else
  match s with
  | [] => false
  | _ :: rest => sHas rest sub

/-- Python `s.endswith(p)`. -/
def sEnds (s p : Str) : Bool := sStarts s.reverse p.reverse

theorem isPref_refl (p : Str) : isPref p p := ⟨[], List.append_nil p⟩

theorem isPref_app (p t : Str) : isPref p (p ++ t) := ⟨t, rfl⟩

theorem isPref_trans {a b c : Str} (h₁ : isPref a b) (h₂ : isPref b c) : isPref a c := by
  obtain ⟨t₁, rfl⟩ := h₁
  obtain ⟨t₂, rfl⟩ := h₂
  exact ⟨t₁ ++ t₂, (List.append_assoc a t₁ t₂).symm⟩

theorem sStarts_iff {s p : Str} : sStarts s p = true ↔ isPref p s := by
  induction p generalizing s with
  | nil => simp [sStarts, isPref]
  | cons d p' ih =>
    cases s with
    | nil =>
      simp only [sStarts, isPref]
      constructor
      · intro h; cases h
      · rintro ⟨t, ht⟩; cases ht
    | cons c s' =>
      simp only [sStarts, Bool.and_eq_true, beq_iff_eq, ih, isPref]
      constructor
      · rintro ⟨rfl, t, rfl⟩; exact ⟨t, rfl⟩
      · rintro ⟨t, ht⟩
        injection ht with h1 h2
        exact ⟨h1.symm, t, h2⟩

/-! ### Occurrence search and splitting (Python `split` / `rsplit` / regexes) -/

/-- Index of the first occurrence of `sep` in `s`, if any. -/
def firstOcc (s sep : Str) : Option Nat :=
  match s with
  | [] => if sStarts [] sep then some 0 else none
  | c :: rest =>
    if sStarts (c :: rest) sep then some 0 else (firstOcc rest sep).map (· + 1)

/-- Index of the last occurrence of `sep` in `s`, if any. -/
def lastOcc (s sep : Str) : Option Nat :=
  match s with
  | [] => if sStarts [] sep then some 0 else none
  | c :: rest =>
    match lastOcc rest sep with
    | some i => some (i + 1)
    | none => if sStarts (c :: rest) sep then some 0 else none

/-- Python `s.rsplit(sep, 1)[0]`: everything before the last occurrence of
`sep` (all of `s` when `sep` does not occur). -/
def beforeLast (s sep : Str) : Str :=
  match lastOcc s sep with
  | some i => s.take i
  | none => s

/-- Python `s.split(sep)[0]`: everything before the first occurrence of `sep`
(all of `s` when `sep` does not occur). -/
def beforeFirst (s sep : Str) : Str :=
  match firstOcc s sep with
  | some i => s.take i
  | none => s

/-- Python `s.split('.')[-1]`: the text after the last dot. -/
def lastSeg (s : Str) : Str :=
  match lastOcc s ['.'] with
  | some i => s.drop (i + 1)
  | none => s

theorem sStarts_length {s p : Str} (h : sStarts s p = true) : p.length ≤ s.length := by
  induction p generalizing s with
  | nil => simp
  | cons d p' ih =>
    cases s with
    | nil => simp [sStarts] at h
    | cons c s' =>
      simp only [sStarts, Bool.and_eq_true] at h
      simpa [List.length_cons] using Nat.succ_le_succ (ih h.2)

theorem firstOcc_bound {s sep : Str} {i : Nat} (h : firstOcc s sep = some i) :
    i + sep.length ≤ s.length := by
  induction s generalizing i with
  | nil =>
    unfold firstOcc at h
    by_cases hs : sStarts [] sep = true
    · rw [if_pos hs] at h
      cases h
      simpa using sStarts_length hs
    · rw [if_neg hs] at h
      cases h
  | cons c rest ih =>
    unfold firstOcc at h
    by_cases hs : sStarts (c :: rest) sep = true
    · rw [if_pos hs] at h
      cases h
      simpa using sStarts_length hs
    · rw [if_neg hs] at h
      cases ho : firstOcc rest sep with
      | none => rw [ho] at h; cases h
      | some j =>
        rw [ho] at h
        cases h
        have := ih ho
        simp [List.length_cons]
        omega

/-- The splitting loop of Python `s.split(sep)`, recursing on a fuel bound.
Each step removes `i + sep.length ≥ 1` characters (`firstOcc_bound`), so with
fuel `s.length` the zero-fuel branch is unreachable and the fuel only serves
to make the recursion structural. -/
def pySplitAux (sep : Str) : Nat → Str → List Str
  | 0, s => [s]
  | fuel + 1, s =>
    match firstOcc s sep with
    | some i => s.take i :: pySplitAux sep fuel (s.drop (i + sep.length))
    | none => [s]

/-- Python `s.split(sep)` for a non-empty separator (splitting on the empty
separator raises in Python; that case never occurs in the sources). -/
def pySplit (s sep : Str) : List Str :=
  match sep with
  | [] => [s]
  | _ :: _ => pySplitAux sep s.length s

/-- Greedy run of decimal digits at the head of `s`, with the rest. -/
def takeDigits : Str → Str × Str
  | [] => ([], [])
  | c :: rest =>
    if c.isDigit then
      let (ds, r) := takeDigits rest
      (c :: ds, r)
    else ([], c :: rest)

/-- Numeric value of a digit string (`int(s)` for non-empty all-digit `s`). -/
def digitsToNat (ds : Str) : Nat :=
  ds.foldl (fun acc c => acc * 10 + (c.toNat - '0'.toNat)) 0

/-! ### Shape of the keys produced by flattening

Every key emitted while flattening an object at a non-empty path extends
`path ++ "."`; every key emitted for array items at a non-empty base extends
`base ++ "["`.  Pre-existing keys of the accumulator are left alone. -/

theorem keysOf_odInsert {res : List (Str × Json)} {k key : Str} {v : Json}
    (hk : k ∈ keysOf (odInsert res key v)) : k ∈ keysOf res ∨ k = key := by
  induction res with
  | nil =>
    simp only [odInsert, keysOf, List.map_cons, List.map_nil, List.mem_singleton] at hk
    exact Or.inr hk
  | cons hd tl ih =>
    by_cases h : hd.1 = key
    · left
      simpa [odInsert, keysOf, h] using hk
    · rcases hd with ⟨k', v'⟩
      simp only at h
      simp only [odInsert, if_neg h, keysOf, List.map_cons, List.mem_cons] at hk
      rcases hk with rfl | hk
      · exact Or.inl (List.mem_cons_self _ _)
      · rcases ih hk with h' | h'
        · exact Or.inl (List.mem_cons_of_mem _ h')
        · exact Or.inr h'

theorem dotJoin_eq_of_ne {path key : Str} (hp : path ≠ []) :
    dotJoin path key = (path ++ ['.']) ++ key := by
  simp [dotJoin, hp]

theorem dotJoin_ne_nil {path key : Str} (hp : path ≠ []) : dotJoin path key ≠ [] := by
  simp [dotJoin_eq_of_ne hp]

theorem isPref_dotJoin {path key : Str} (hp : path ≠ []) :
    isPref (path ++ ['.']) (dotJoin path key) := by
  rw [dotJoin_eq_of_ne hp]; exact isPref_app _ _

theorem getComponentPath_cases (fields : List (Str × Json)) (path : Str) :
    getComponentPath fields path = path ∨
      ∃ name, componentNameOf fields = some name ∧
        getComponentPath fields path = dotJoin path name := by
  unfold getComponentPath
  cases h : componentNameOf fields with
  | none => exact Or.inl rfl
  | some name => exact Or.inr ⟨name, rfl, rfl⟩

theorem getComponentPath_ne_nil {fields : List (Str × Json)} {path : Str} (hp : path ≠ []) :
    getComponentPath fields path ≠ [] := by
  rcases getComponentPath_cases fields path with h | ⟨name, _, h⟩
  · rw [h]; exact hp
  · rw [h]; exact dotJoin_ne_nil hp

theorem isPref_getComponentPath (fields : List (Str × Json)) {path : Str} (hp : path ≠ []) :
    isPref path (getComponentPath fields path) := by
  rcases getComponentPath_cases fields path with h | ⟨name, _, h⟩
  · rw [h]; exact isPref_refl path
  · rw [h, dotJoin_eq_of_ne hp, List.append_assoc]
    exact isPref_app _ _

theorem idxPath_ne_nil (base : Str) (i : Nat) : idxPath base i ≠ [] := by
  simp [idxPath]

theorem isPref_idxPath (base : Str) (i : Nat) :
    isPref (base ++ ['[']) (idxPath base i) := by
  unfold idxPath
  rw [show base ++ '[' :: (natStr i ++ [']']) = (base ++ ['[']) ++ (natStr i ++ [']']) by simp]
  exact isPref_app _ _

mutual

theorem keysOf_processValue :
    ∀ (v : Json) (cur : Str) (res : List (Str × Json)) (k : Str),
      cur ≠ [] → k ∈ keysOf (processValue v cur res) →
      k ∈ keysOf res ∨ isPref cur k
  | .obj fs, cur, res, k, hc, hk => by
    rw [processValue] at hk
    rcases keysOf_flattenFields fs (getComponentPath fs cur) res k
        (getComponentPath_ne_nil hc) hk with h | h
    · exact Or.inl h
    · refine Or.inr (isPref_trans (isPref_getComponentPath fs hc) ?_)
      exact isPref_trans (isPref_app _ ['.']) h
  | .arr its, cur, res, k, hc, hk => by
    rw [processValue] at hk
    rcases keysOf_flattenItems its cur 0 res k hc hk with h | h
    · exact Or.inl h
    · exact Or.inr (isPref_trans (isPref_app _ ['[']) h)
  | .null, cur, res, k, _, hk => by
    rw [processValue] at hk
    rcases keysOf_odInsert hk with h | rfl
    · exact Or.inl h
    · exact Or.inr (isPref_refl _)
  | .bool b, cur, res, k, _, hk => by
    rw [processValue] at hk
    rcases keysOf_odInsert hk with h | rfl
    · exact Or.inl h
    · exact Or.inr (isPref_refl _)
  | .num n, cur, res, k, _, hk => by
    rw [processValue] at hk
    rcases keysOf_odInsert hk with h | rfl
    · exact Or.inl h
    · exact Or.inr (isPref_refl _)
  | .str s, cur, res, k, _, hk => by
    rw [processValue] at hk
    rcases keysOf_odInsert hk with h | rfl
    · exact Or.inl h
    · exact Or.inr (isPref_refl _)

theorem keysOf_flattenFields :
    ∀ (fields : List (Str × Json)) (path : Str) (res : List (Str × Json)) (k : Str),
      path ≠ [] → k ∈ keysOf (flattenFields fields path res) →
      k ∈ keysOf res ∨ isPref (path ++ ['.']) k
  | [], _, _, _, _, hk => by
    rw [flattenFields] at hk
    exact Or.inl hk
  | (key, v) :: rest, path, res, k, hp, hk => by
    rw [flattenFields] at hk
    rcases keysOf_flattenFields rest path _ k hp hk with hmem | hpref
    · rcases keysOf_processValue v (dotJoin path key) res k (dotJoin_ne_nil hp) hmem with h | h
      · exact Or.inl h
      · exact Or.inr (isPref_trans (isPref_dotJoin hp) h)
    · exact Or.inr hpref

theorem keysOf_flattenItems :
    ∀ (items : List Json) (base : Str) (i : Nat) (res : List (Str × Json)) (k : Str),
      base ≠ [] → k ∈ keysOf (flattenItems items base i res) →
      k ∈ keysOf res ∨ isPref (base ++ ['[']) k
  | [], _, _, _, _, _, hk => by
    rw [flattenItems] at hk
    exact Or.inl hk
  | item :: rest, base, i, res, k, hb, hk => by
    rw [flattenItems] at hk
    rcases keysOf_flattenItems rest base (i + 1) _ k hb hk with hmem | hpref
    · rcases keysOf_processValue item (idxPath base i) res k (idxPath_ne_nil base i) hmem
          with h | h
      · exact Or.inl h
      · exact Or.inr (isPref_trans (isPref_idxPath base i) h)
    · exact Or.inr hpref

end

theorem componentNameOf_ne_nil {fields : List (Str × Json)} {name : Str}
    (h : componentNameOf fields = some name) : name ≠ [] := by
  unfold componentNameOf at h
  cases hm : getField fields (cs "meta") with
  | none => simp only [hm] at h; cases h
  | some mv =>
    cases mv with
    | obj m =>
      simp only [hm] at h
      cases hn : getField m (cs "name") with
      | none => simp only [hn] at h; cases h
      | some nv =>
        cases nv with
        | str s =>
          simp only [hn] at h
          by_cases he : s.isEmpty
          · simp [he] at h
          · rw [if_neg he] at h
            cases h
            simpa [List.isEmpty_iff] using he
        | null => simp only [hn] at h; cases h
        | bool b => simp only [hn] at h; cases h
        | num n => simp only [hn] at h; cases h
        | arr l => simp only [hn] at h; cases h
        | obj l => simp only [hn] at h; cases h
    | null => simp only [hm] at h; cases h
    | bool b => simp only [hm] at h; cases h
    | num n => simp only [hm] at h; cases h
    | str s => simp only [hm] at h; cases h
    | arr l => simp only [hm] at h; cases h

/-! ### Claim C1 -/

/-- The object `{"meta": {"name": "Button1"}, "props": {"text": "hi"}}`. -/
def c1Fields : List (Str × Json) :=
  [(cs "meta", .obj [(cs "name", .str (cs "Button1"))]),
   (cs "props", .obj [(cs "text", .str (cs "hi"))])]

/-- The document `{"root": {"children": [<c1Fields>]}}`. -/
def c1Doc : Json :=
  .obj [(cs "root", .obj [(cs "children", .arr [.obj c1Fields])])]

/-- C1, as amended: when an object carries a truthy `meta.name = name`, every
path `flatten_json` newly emits from that object's subtree extends
`dotJoin path name ++ "."`: the component name is *appended after* the
accumulated prefix (raw key/index segments included) before the object's own
keys are processed, and because this holds at every incoming `path` it
composes for arbitrarily nested components. -/
theorem C1_component_rename {fields : List (Str × Json)} {path k name : Str}
    {res : List (Str × Json)}
    (hname : componentNameOf fields = some name)
    (hk : k ∈ keysOf (flattenJson (.obj fields) path res))
    (hnew : k ∉ keysOf res) :
    isPref (dotJoin path name ++ ['.']) k := by
  have hne : name ≠ [] := componentNameOf_ne_nil hname
  have hdj : dotJoin path name ≠ [] := by
    by_cases hp : path = []
    · simpa [dotJoin, hp] using hne
    · exact dotJoin_ne_nil hp
  rw [show flattenJson (.obj fields) path res
      = flattenFields fields (getComponentPath fields path) res from rfl] at hk
  rw [show getComponentPath fields path = dotJoin path name by
      simp [getComponentPath, hname]] at hk
  rcases keysOf_flattenFields fields (dotJoin path name) res k hdj hk with h | h
  · exact absurd h hnew
  · exact h

/-- Witness: `C1_component_rename` applied to the `Button1` object flattened at
path `root.children[0]`. -/
theorem C1_component_rename_witness :
    componentNameOf c1Fields = some (cs "Button1") ∧
    cs "root.children[0].Button1.props.text"
      ∈ keysOf (flattenJson (.obj c1Fields) (cs "root.children[0]") []) ∧
    cs "root.children[0].Button1.props.text" ∉ keysOf ([] : List (Str × Json)) ∧
    isPref (dotJoin (cs "root.children[0]") (cs "Button1") ++ ['.'])
      (cs "root.children[0].Button1.props.text") :=
  ⟨by decide, by decide, by decide,
   @C1_component_rename c1Fields (cs "root.children[0]")
     (cs "root.children[0].Button1.props.text") (cs "Button1") []
     (by decide) (by decide) (by decide)⟩

/-- C1 is false as stated: for the document `c1Doc`, whose `children[0]` object
carries `meta.name = "Button1"`, *every* flattened path of that subtree still
contains the raw index segment `children[0]` (the component name does not
replace it), and the path `root.Button1.props.text` that a true prefix
renaming would produce does not occur. -/
theorem C1_counterexample :
    keysOf (flattenJson c1Doc [] []) =
      [cs "root.children[0].Button1.meta.name",
       cs "root.children[0].Button1.props.text"] ∧
    (∀ k ∈ keysOf (flattenJson c1Doc [] []), sHas k (cs "children[0]") = true) ∧
    cs "root.Button1.props.text" ∉ keysOf (flattenJson c1Doc [] []) := by
  decide

/-! ### Node model (`model/node_types.py`)

Payload fields hold the raw JSON values the builder reads out of the
flattened map (Python stores them untyped on the node objects). -/

/-- The `NodeType` enum. -/
inductive NodeType : Type where
  | component
  | expressionBinding
  | expressionStructBinding
  | propertyBinding
  | tagBinding
  | queryBinding
  | messageHandler
  | customMethod
  | transform
  | eventHandler
  | property
deriving DecidableEq

/-- The concrete `ViewNode` variants the builder creates.  (`TagBinding` is
always constructed with the default mode `"direct"` and empty references;
`ExpressionStructBinding` and `QueryBinding` are never constructed by
`builder.py`.) -/
inductive Node : Type where
  | component (path : Str) (name : Json) (typeName : Json) (properties : List (Str × Json))
  | expressionBinding (path : Str) (expression : Json)
  | propertyBinding (path : Str) (targetPath : Json)
  | tagBinding (path : Str) (tagPath : Json)
  | messageHandler (path : Str) (script : Json) (messageType : Json)
      (pageScope sessionScope viewScope : Json)
  | customMethod (path : Str) (name : Json) (script : Json) (params : List Json)
  | transform (path : Str) (script : Json) (bindingPath : Str)
  | eventHandler (path : Str) (eventDomain : Str) (eventType : Str)
      (script : Json) (scope : Json)
  | property (path : Str) (name : Str) (value : Json)
deriving DecidableEq

/-- `ViewNode.path`. -/
def Node.path : Node → Str
  | .component p _ _ _ => p
  | .expressionBinding p _ => p
  | .propertyBinding p _ => p
  | .tagBinding p _ => p
  | .messageHandler p _ _ _ _ _ => p
  | .customMethod p _ _ _ => p
  | .transform p _ _ => p
  | .eventHandler p _ _ _ _ => p
  | .property p _ _ => p

/-- `ViewNode.node_type`. -/
def Node.nodeType : Node → NodeType
  | .component .. => .component
  | .expressionBinding .. => .expressionBinding
  | .propertyBinding .. => .propertyBinding
  | .tagBinding .. => .tagBinding
  | .messageHandler .. => .messageHandler
  | .customMethod .. => .customMethod
  | .transform .. => .transform
  | .eventHandler .. => .eventHandler
  | .property .. => .property

/-! ### Model builder (`model/builder.py`) -/

/-- `_search_for_path_value(path, suffix, fallback)` (the suffix is always
given at the call sites that use a fallback). -/
def searchPV (fm : List (Str × Json)) (path suffix : Str) (fallback : Json) : Json :=
  (getField fm (path ++ '.' :: suffix)).getD fallback

/-- `_collect_components`: one `Component` per path ending in `.meta.name`,
typed from `<prefix>.type` with default `"unknown"`, with an empty property
map. -/
def collectComponents (fm : List (Str × Json)) : List Node :=
  fm.filterMap fun pv =>
    if sEnds pv.1 (cs ".meta.name") then
      let componentPath := beforeLast pv.1 (cs ".meta.name")
      some (.component componentPath pv.2
        (searchPV fm componentPath (cs "type") (.str (cs "unknown"))) [])
    else none

/-- `_get_script_transforms`: transform base paths under
`<full_binding_path>.transforms` whose `.type` is `"script"`, paired with the
value at their `.script` sub-path when present. -/
def getScriptTransforms (fm : List (Str × Json)) (fullBindingPath : Str) :
    List (Str × Json) :=
  let transformPaths := fm.filterMap fun pv =>
    if sStarts pv.1 (fullBindingPath ++ cs ".transforms") ∧ sEnds pv.1 (cs ".type") ∧
        pv.2 = Json.str (cs "script") then
      some (beforeLast pv.1 (cs ".type"))
    else none
  transformPaths.filterMap fun tp =>
    match getField fm (tp ++ cs ".script") with
    | some v => some (tp, v)
    | none => none

/-- The binding-related model lists `_collect_bindings` fills. -/
structure BindAcc : Type where
  bindings : List Node
  exprs : List Node
  propBs : List Node
  tagBs : List Node
  transforms : List Node
deriving DecidableEq

/-- `_collect_bindings`.  A binding path is processed once (`visited_paths`);
the variant is chosen by the value at the `.binding.type` path; script
transforms are collected for every first-visit binding path regardless of
variant (the transform block sits outside the variant dispatch). -/
def collectBindingsAux (fm : List (Str × Json)) :
    List (Str × Json) → List Str → BindAcc
  | [], _ => ⟨[], [], [], [], []⟩
  | (path, bindingType) :: rest, visited =>
    if sHas path (cs ".binding.type") then
      let bindingPath := beforeLast path (cs ".binding.type")
      if bindingPath ∈ visited then collectBindingsAux fm rest visited
      else
        let acc := collectBindingsAux fm rest (bindingPath :: visited)
        let newTransforms := (getScriptTransforms fm (bindingPath ++ cs ".binding")).map
          fun tv => Node.transform tv.1 tv.2 bindingPath
        if bindingType = Json.str (cs "expression") ∨ bindingType = Json.str (cs "expr") then
          let b := Node.expressionBinding bindingPath
            (searchPV fm bindingPath (cs "binding.config.expression") (.str (cs "unknown")))
          ⟨b :: acc.bindings, b :: acc.exprs, acc.propBs, acc.tagBs,
            newTransforms ++ acc.transforms⟩
        else if bindingType = Json.str (cs "property") then
          let b := Node.propertyBinding bindingPath
            (searchPV fm bindingPath (cs "binding.config.path") (.str (cs "unknown")))
          ⟨b :: acc.bindings, acc.exprs, b :: acc.propBs, acc.tagBs,
            newTransforms ++ acc.transforms⟩
        else if bindingType = Json.str (cs "tag") then
          let b := Node.tagBinding bindingPath
            (searchPV fm bindingPath (cs "binding.config.tagPath") (.str (cs "unknown")))
          ⟨b :: acc.bindings, acc.exprs, acc.propBs, b :: acc.tagBs,
            newTransforms ++ acc.transforms⟩
        else
          ⟨acc.bindings, acc.exprs, acc.propBs, acc.tagBs, newTransforms ++ acc.transforms⟩
    else collectBindingsAux fm rest visited

/-- `_collect_bindings` over the whole flattened map. -/
def collectBindings (fm : List (Str × Json)) : BindAcc :=
  collectBindingsAux fm fm []

/-- `_collect_message_handlers`. -/
def collectMessageHandlers (fm : List (Str × Json)) : List Node :=
  fm.filterMap fun pv =>
    if sHas pv.1 (cs ".scripts.messageHandlers") ∧ sEnds pv.1 (cs ".messageType") then
      let basePath := beforeLast pv.1 (cs ".messageType")
      some (.messageHandler basePath
        (searchPV fm basePath (cs "script") (.str []))
        pv.2
        (searchPV fm basePath (cs "pageScope") (.bool false))
        (searchPV fm basePath (cs "sessionScope") (.bool false))
        (searchPV fm basePath (cs "viewScope") (.bool false)))
    else none

/-- The tail of `path` after the last occurrence of `sep`, when that tail is
non-empty and dot-free.  This is exactly what `re.search(sep_re + r'([^.]+)$',
path)` captures: any earlier occurrence of `sep` is followed by a further dot
(inside the later occurrence), so only the last occurrence can match the
dot-free-to-end capture. -/
def dotFreeTailAfter (path sep : Str) : Option Str :=
  match lastOcc path sep with
  | some i =>
    let tail := path.drop (i + sep.length)
    if tail ≠ [] ∧ tail.all (fun c => c ≠ '.') then some tail else none
  | none => none

/-- `_collect_event_handlers`: paths containing `.events.` and ending in
`.script` (or containing `.config.script`); the event type is the dot-free
tail after `.events.`; missing `.scope` defaults to `"L"`. -/
def collectEventHandlers (fm : List (Str × Json)) : List Node :=
  fm.filterMap fun pv =>
    if sHas pv.1 (cs ".events.") ∧
        (sHas pv.1 (cs ".config.script") ∨ sEnds pv.1 (cs ".script")) then
      let eventPathParts :=
        if sHas pv.1 (cs ".config.script") then beforeFirst pv.1 (cs ".config.script")
        else beforeFirst pv.1 (cs ".script")
      match dotFreeTailAfter eventPathParts (cs ".events.") with
      | some eventType =>
        some (.eventHandler eventPathParts (cs "component") eventType pv.2
          ((getField fm (eventPathParts ++ cs ".scope")).getD (.str (cs "L"))))
      | none => none
    else none

/-- Accumulated data of one custom method (`custom_method_data` entries). -/
structure MethodData : Type where
  path : Str
  name : Json
  params : List Json
  script : Json
deriving DecidableEq

/-- First match of `re.search(r'\.scripts\.customMethods\[(\d+)\]', path)`:
scan left to right for `.scripts.customMethods[` followed by one or more
digits and `]`. -/
def findCustomMethodIdx : Str → Option Nat
  | [] => none
  | c :: rest =>
    let s := c :: rest
    if sStarts s (cs ".scripts.customMethods[") then
      let after := s.drop (cs ".scripts.customMethods[").length
      let (ds, r) := takeDigits after
      if ds ≠ [] ∧ sStarts r (cs "]") then some (digitsToNat ds)
      else findCustomMethodIdx rest
    else findCustomMethodIdx rest

/-- First match of `re.search(r'params\[(\d+)\]', path)`. -/
def findParamsIdx : Str → Option Nat
  | [] => none
  | c :: rest =>
    let s := c :: rest
    if sStarts s (cs "params[") then
      let after := s.drop (cs "params[").length
      let (ds, r) := takeDigits after
      if ds ≠ [] ∧ sStarts r (cs "]") then some (digitsToNat ds)
      else findParamsIdx rest
    else findParamsIdx rest

/-- Pad `l` with `''` up to index `p`, then set index `p` to `v`
(the `while len(params) <= param_index` loop). -/
def setPad (l : List Json) (p : Nat) (v : Json) : List Json :=
  (l ++ List.replicate (p + 1 - l.length) (Json.str [])).set p v

/-- The data-gathering loop of `_collect_custom_methods`. -/
def cmFold : List (Str × Json) → List (Str × MethodData) → List (Str × MethodData)
  | [], acc => acc
  | (path, value) :: rest, acc =>
    let acc' :=
      if sHas path (cs ".scripts.customMethods") then
        match findCustomMethodIdx path with
        | some idx =>
          let componentPath := beforeFirst path (cs ".scripts.customMethods")
          let methodId := componentPath ++ cs ".customMethod_" ++ natStr idx
          let data := (getField acc methodId).getD
            { path := componentPath ++ cs ".scripts.customMethods[" ++ natStr idx ++ cs "]"
              name := .str (cs "unknown_method")
              params := []
              script := .str [] }
          let data' :=
            if sEnds path (cs ".name") then { data with name := value }
            else if sEnds path (cs ".script") then { data with script := value }
            else if sHas path (cs "params") then
              match findParamsIdx path with
              | some p => { data with params := setPad data.params p value }
              | none => data
            else data
          odInsert acc methodId data'
        | none => acc
      else acc
    cmFold rest acc'

/-- `_collect_custom_methods`: gather per-method data, then build one
`CustomMethodScript` per group in first-seen order. -/
def collectCustomMethods (fm : List (Str × Json)) : List Node :=
  (cmFold fm []).map fun kd => Node.customMethod kd.2.path kd.2.name kd.2.script kd.2.params

/-- `_is_property_persistent`: an explicit non-null value at
`propConfig.<path>.persistent` decides (by its truthiness, as Python returns
the raw value into an `if`); a JSON `null` loads as Python `None` and falls
through to the two remaining branches, both of which return `True`; a missing
entry likewise yields `True`. -/
def isPropertyPersistent (fm : List (Str × Json)) (propertyPath : Str) : Bool :=
  match getField fm (cs "propConfig." ++ propertyPath ++ cs ".persistent") with
  | some .null => true
  | some v => v.truthy
  | none => true

/-- The skip test of `_collect_properties` (already-processed path families
and `.type` suffixes). -/
def processedPropSkip (path : Str) : Bool :=
  sHas path (cs ".meta.") ∨ sHas path (cs ".binding.") ∨ sHas path (cs ".scripts.") ∨
    sHas path (cs ".events.") ∨ sEnds path (cs ".type")

/-- The longest-matching component path for a property path (the inner loop
of `_collect_properties`; strict `>` keeps the earlier component on ties). -/
def longestComponentPath (components : List Node) (path : Str) : Option Str :=
  components.foldl
    (fun best comp =>
      match comp with
      | .component cpath _ _ _ =>
        if sStarts path cpath then
          match best with
          | none => some cpath
          | some b => if b.length < cpath.length then some cpath else some b
        else best
      | _ => best)
    none

/-- Python's `component_path in self.model['components']`: the string is
compared with `Component` objects, and cross-type `==` falls back to identity,
so every comparison is `False`.  (Were it ever `True`, the next line would
index a list with a string and raise `TypeError`.) -/
def pyStrEqComponent (_ : Str) (_ : Node) : Bool := false

/-- `_collect_properties`, returning the property nodes and the (in fact
untouched) component list. -/
def collectPropertiesAux (fm : List (Str × Json)) :
    List (Str × Json) → List Node → List Node × List Node
  | [], comps => ([], comps)
  | (path, value) :: rest, comps =>
    if processedPropSkip path then collectPropertiesAux fm rest comps
    else if sStarts path (cs "propConfig.") then collectPropertiesAux fm rest comps
    else if sStarts path (cs "custom.") ∨ sStarts path (cs "params.") then
      if isPropertyPersistent fm path then
        let (props, comps') := collectPropertiesAux fm rest comps
        (Node.property path (lastSeg path) value :: props, comps')
      else collectPropertiesAux fm rest comps
    else
      match longestComponentPath comps path with
      | some componentPath =>
        if sHas path (cs ".custom.") ∧ ¬isPropertyPersistent fm path then
          collectPropertiesAux fm rest comps
        else
          -- `if component_path in self.model['components']`: never taken
          -- (see `pyStrEqComponent`), so the component property maps are
          -- never written to.
          let comps' :=
            if comps.any (pyStrEqComponent componentPath) then comps else comps
          let (props, comps'') := collectPropertiesAux fm rest comps'
          (Node.property path (lastSeg path) value :: props, comps'')
      | none => collectPropertiesAux fm rest comps

/-- The view model dictionary, in its insertion order. -/
structure ViewModel : Type where
  components : List Node
  bindings : List Node
  scripts : List Node
  eventHandlers : List Node
  messageHandlers : List Node
  customMethods : List Node
  expressionBindings : List Node
  propertyBindings : List Node
  tagBindings : List Node
  scriptTransforms : List Node
  properties : List Node
deriving DecidableEq

/-- `build_model`: the five collection passes over the flattened map.
`scripts` aggregates, in pass order, the binding transforms, message
handlers, custom methods and event handlers. -/
def buildModel (fm : List (Str × Json)) : ViewModel :=
  let components := collectComponents fm
  let bacc := collectBindings fm
  let messageHandlers := collectMessageHandlers fm
  let customMethods := collectCustomMethods fm
  let eventHandlers := collectEventHandlers fm
  let pc := collectPropertiesAux fm fm components
  { components := pc.2
    bindings := bacc.bindings
    scripts := bacc.transforms ++ messageHandlers ++ customMethods ++ eventHandlers
    eventHandlers := eventHandlers
    messageHandlers := messageHandlers
    customMethods := customMethods
    expressionBindings := bacc.exprs
    propertyBindings := bacc.propBs
    tagBindings := bacc.tagBs
    scriptTransforms := bacc.transforms
    properties := pc.1 }

/-- The flat node list `LintEngine.process` builds: `model.values()` in
dictionary insertion order, concatenated. -/
def allNodes (m : ViewModel) : List Node :=
  m.components ++ m.bindings ++ m.scripts ++ m.eventHandlers ++ m.messageHandlers ++
    m.customMethods ++ m.expressionBindings ++ m.propertyBindings ++ m.tagBindings ++
    m.scriptTransforms ++ m.properties

/-! ### Claim C2 -/

/-- The document
`{"custom": {"MyArrayProperty": ["a","b","c"]},
  "root": {"meta": {"name": "root"}, "type": "ia.container.coord"}}`. -/
def c2Doc : Json :=
  .obj [(cs "custom", .obj [(cs "MyArrayProperty",
          .arr [.str (cs "a"), .str (cs "b"), .str (cs "c")])]),
        (cs "root", .obj [(cs "meta", .obj [(cs "name", .str (cs "root"))]),
                          (cs "type", .str (cs "ia.container.coord"))])]

/-- C2 fails on the code: flattening stores one scalar per array element at
`custom.MyArrayProperty[i]`, and `_collect_properties` turns each of them into
its own `Property` node — three indexed nodes, not one node carrying the whole
array.  (The repository's own test
`test_array_property_validated_once` expects a single violation for such a
property, which is what the claim states.) -/
theorem C2_array_property_split :
    (buildModel (flattenJson c2Doc [] [])).properties =
      [.property (cs "custom.MyArrayProperty[0]") (cs "MyArrayProperty[0]") (.str (cs "a")),
       .property (cs "custom.MyArrayProperty[1]") (cs "MyArrayProperty[1]") (.str (cs "b")),
       .property (cs "custom.MyArrayProperty[2]") (cs "MyArrayProperty[2]") (.str (cs "c"))] ∧
    (∀ n ∈ (buildModel (flattenJson c2Doc [] [])).properties,
      n.path ≠ cs "custom.MyArrayProperty") := by
  decide

/-! ### Claim C4 -/

/-- A flattened view with components at `root` and
`root.children[0].Button1` and a custom property on the nested component. -/
def c4Fm : List (Str × Json) :=
  [(cs "root.meta.name", .str (cs "root")),
   (cs "root.type", .str (cs "ia.container.coord")),
   (cs "root.children[0].Button1.meta.name", .str (cs "Button1")),
   (cs "root.children[0].Button1.type", .str (cs "ia.input.button")),
   (cs "root.children[0].Button1.custom.x", .num 5)]

/-- The `properties` map of a `Component` node (empty for other variants). -/
def Node.propsMap : Node → List (Str × Json)
  | .component _ _ _ pr => pr
  | _ => []

/-- C4 fails on the code: the longest-prefix component for
`root.children[0].Button1.custom.x` is computed correctly (`Button1`, not
`root`), and the `Property` node is created — but the guard
`component_path in self.model['components']` compares a string against
`Component` objects and is always `False`, so the property is recorded in *no*
component's `properties` map: both maps stay empty. -/
theorem C4_property_map_not_recorded :
    longestComponentPath (buildModel c4Fm).components
        (cs "root.children[0].Button1.custom.x") =
      some (cs "root.children[0].Button1") ∧
    (buildModel c4Fm).properties.map Node.path =
      [cs "root.children[0].Button1.custom.x"] ∧
    (buildModel c4Fm).components =
      [.component (cs "root") (.str (cs "root")) (.str (cs "ia.container.coord")) [],
       .component (cs "root.children[0].Button1") (.str (cs "Button1"))
         (.str (cs "ia.input.button")) []] ∧
    (∀ n ∈ (buildModel c4Fm).components, n.propsMap = []) := by
  decide

/-! ### Builder invariants: aggregate vs. variant lists -/

theorem bindAux_mem {fm : List (Str × Json)} :
    ∀ (l : List (Str × Json)) (visited : List Str) (b : Node),
      b ∈ (collectBindingsAux fm l visited).bindings →
      b ∈ (collectBindingsAux fm l visited).exprs ∨
        b ∈ (collectBindingsAux fm l visited).propBs ∨
        b ∈ (collectBindingsAux fm l visited).tagBs
  | [], visited, b => by simp [collectBindingsAux]
  | (path, bt) :: rest, visited, b => by
    intro hb
    by_cases hc : sHas path (cs ".binding.type") = true
    · by_cases hv : beforeLast path (cs ".binding.type") ∈ visited
      · rw [collectBindingsAux] at hb ⊢
        simp only [hc, if_true, hv, if_pos] at hb ⊢
        exact bindAux_mem rest visited b hb
      · by_cases he : bt = Json.str (cs "expression") ∨ bt = Json.str (cs "expr")
        · rw [collectBindingsAux] at hb ⊢
          simp only [hc, if_true, hv, if_neg, if_pos, he] at hb ⊢
          rcases List.mem_cons.mp hb with rfl | hb
          · exact Or.inl (List.mem_cons_self _ _)
          · rcases bindAux_mem rest _ b hb with h | h | h
            · exact Or.inl (List.mem_cons_of_mem _ h)
            · exact Or.inr (Or.inl h)
            · exact Or.inr (Or.inr h)
        · by_cases hp : bt = Json.str (cs "property")
          · rw [collectBindingsAux] at hb ⊢
            simp only [hc, if_true, hv, he, hp, if_neg, if_pos, if_false] at hb ⊢
            rcases List.mem_cons.mp hb with rfl | hb
            · exact Or.inr (Or.inl (List.mem_cons_self _ _))
            · rcases bindAux_mem rest _ b hb with h | h | h
              · exact Or.inl h
              · exact Or.inr (Or.inl (List.mem_cons_of_mem _ h))
              · exact Or.inr (Or.inr h)
          · by_cases ht : bt = Json.str (cs "tag")
            · rw [collectBindingsAux] at hb ⊢
              simp only [hc, if_true, hv, he, hp, ht, if_neg, if_pos, if_false] at hb ⊢
              rcases List.mem_cons.mp hb with rfl | hb
              · exact Or.inr (Or.inr (List.mem_cons_self _ _))
              · rcases bindAux_mem rest _ b hb with h | h | h
                · exact Or.inl h
                · exact Or.inr (Or.inl h)
                · exact Or.inr (Or.inr (List.mem_cons_of_mem _ h))
            · rw [collectBindingsAux] at hb ⊢
              simp only [hc, if_true, hv, he, hp, ht, if_neg, if_false] at hb ⊢
              exact bindAux_mem rest _ b hb
    · rw [collectBindingsAux] at hb ⊢
      simp only [hc, if_neg, if_false] at hb ⊢
      exact bindAux_mem rest visited b hb

/-- The `scripts` aggregate is exactly the concatenation of the four
script-bearing variant lists (definitional in `build_model`). -/
theorem buildModel_scripts_eq (fm : List (Str × Json)) :
    (buildModel fm).scripts =
      (buildModel fm).scriptTransforms ++ (buildModel fm).messageHandlers ++
        (buildModel fm).customMethods ++ (buildModel fm).eventHandlers := rfl

theorem buildModel_bindings_mem {fm : List (Str × Json)} {b : Node}
    (hb : b ∈ (buildModel fm).bindings) :
    b ∈ (buildModel fm).expressionBindings ∨ b ∈ (buildModel fm).propertyBindings ∨
      b ∈ (buildModel fm).tagBindings :=
  bindAux_mem fm [] b hb

/-! ### PollingIntervalRule (`rules/polling_interval.py`) -/

/-- Python `\s`: space, tab, newline, carriage return, vertical tab, form
feed. -/
def isSpaceChar (c : Char) : Bool :=
  c = ' ' ∨ c = '\t' ∨ c = '\n' ∨ c = '\r' ∨ c = '\x0b' ∨ c = '\x0c'

/-- Python `s.strip()`. -/
def pyStrip (s : Str) : Str :=
  ((s.dropWhile isSpaceChar).reverse.dropWhile isSpaceChar).reverse

/-- One attempted match of `now\s*\(\s*(\d*)\s*\)` anchored at the head of
`s`: the captured digit group and the remainder after `)`.  (No alternative
here ever needs backtracking: `\s` cannot match `(` or `)`, and `\d` cannot
match `\s` or `)`.) -/
def tryNowMatch (s : Str) : Option (Str × Str) :=
  match s with
  | 'n' :: 'o' :: 'w' :: rest =>
    match rest.dropWhile isSpaceChar with
    | '(' :: r2 =>
      match (takeDigits (r2.dropWhile isSpaceChar)).2.dropWhile isSpaceChar with
      | ')' :: r6 => some ((takeDigits (r2.dropWhile isSpaceChar)).1, r6)
      | _ => none
    | _ => none
  | _ => none

theorem dropWhile_length_le (p : Char → Bool) (s : Str) :
    (s.dropWhile p).length ≤ s.length := by
  induction s with
  | nil => simp
  | cons c rest ih =>
    by_cases h : p c
    · simp only [List.dropWhile_cons, h, if_true]
      exact Nat.le_succ_of_le ih
    · simp [List.dropWhile_cons, h]

theorem takeDigits_length_le (s : Str) : (takeDigits s).2.length ≤ s.length := by
  induction s with
  | nil => simp [takeDigits]
  | cons c rest ih =>
    by_cases h : c.isDigit
    · simp only [takeDigits, h, if_true]
      exact Nat.le_succ_of_le ih
    · simp [takeDigits, h]

theorem tryNowMatch_lt {s ds r : Str} (h : tryNowMatch s = some (ds, r)) :
    r.length < s.length := by
  unfold tryNowMatch at h
  split at h
  case _ rest =>
    split at h
    case _ r2 heq =>
      split at h
      case _ r6 heq2 =>
        cases h
        have h1 : (rest.dropWhile isSpaceChar).length ≤ rest.length :=
          dropWhile_length_le _ _
        have h2 : ((takeDigits (r2.dropWhile isSpaceChar)).2).length ≤ r2.length :=
          Nat.le_trans (takeDigits_length_le _) (dropWhile_length_le _ _)
        have h3 : ((takeDigits (r2.dropWhile isSpaceChar)).2.dropWhile isSpaceChar).length ≤
            (takeDigits (r2.dropWhile isSpaceChar)).2.length := dropWhile_length_le _ _
        have h4 : (')' :: r).length ≤ (takeDigits (r2.dropWhile isSpaceChar)).2.length := by
          rw [← heq2]; exact h3
        have h5 : ('(' :: r2).length ≤ rest.length := by
          rw [← heq]; exact h1
        simp only [List.length_cons] at h4 h5 ⊢
        omega
      case _ => cases h
    case _ => cases h
  case _ => cases h

/-- The scanning loop of `re.findall(r'now\s*\(\s*(\d*)\s*\)', expression)`,
recursing on a fuel bound: collect non-overlapping matches left to right.
Each step removes at least one character (`tryNowMatch_lt` for a match, one
character otherwise), so with fuel `s.length` the zero-fuel branch is
unreachable and the fuel only serves to make the recursion structural. -/
def nowFindAllAux : Nat → Str → List Str
  | 0, _ => []
  | _ + 1, [] => []
  | fuel + 1, c :: rest =>
    match tryNowMatch (c :: rest) with
    | some dr => dr.1 :: nowFindAllAux fuel dr.2
    | none => nowFindAllAux fuel rest

/-- `re.findall(r'now\s*\(\s*(\d*)\s*\)', expression)`. -/
def nowFindAll (s : Str) : List Str := nowFindAllAux s.length s

/-- Does `now\s*\(` match at the head of `s`? -/
def nowParenAt (s : Str) : Bool :=
  match s with
  | 'n' :: 'o' :: 'w' :: r =>
    match r.dropWhile isSpaceChar with
    | '(' :: _ => true
    | _ => false
  | _ => false

/-- `re.search(r'now\s*\(', expression)` succeeds somewhere. -/
def hasNowParen : Str → Bool
  | [] => false
  | c :: rest => nowParenAt (c :: rest) || hasNowParen rest

/-- `_is_valid_polling(expression)` with the configured `min_interval`. -/
def isValidPolling (minInterval : Nat) (expression : Str) : Bool :=
  if sHas expression (cs "now") = false then true
  else
    match nowFindAll expression with
    | [] => if hasNowParen expression then false else true
    | ms => ms.all fun ds =>
        if pyStrip ds = [] then false
        else !(decide (0 < digitsToNat ds) && decide (digitsToNat ds < minInterval))

/-- `PollingIntervalRule.visit_expression_binding`: the messages appended for
one node (non-string expression payloads would raise a `TypeError` in Python
and never occur; they contribute nothing here). -/
def pollingVisitExpr (minInterval : Nat) (node : Node) : List Str :=
  match node with
  | .expressionBinding path (Json.str expr) =>
    if sHas expr (cs "now") then
      if isValidPolling minInterval expr then []
      else [path ++ cs ": '" ++ expr ++ ['\'']]
    else []
  | _ => []

/-- `ViewNode.applies_to_rule`: an empty target set accepts every node. -/
def nodeAppliesTo (n : Node) (targets : List NodeType) : Bool :=
  targets.isEmpty || targets.contains n.nodeType

/-- The rule's declared target node types. -/
def pollingTargets : List NodeType := [.expressionBinding, .propertyBinding, .tagBinding]

/-- `process_nodes` of the polling rule: filter the applicable nodes, visit
each in order, and collect the appended errors.  (The rule's only non-trivial
visit method is `visit_expression_binding`.) -/
def pollingRun (minInterval : Nat) (nodes : List Node) : List Str :=
  ((nodes.filter fun n => nodeAppliesTo n pollingTargets).map
    (pollingVisitExpr minInterval)).flatten

/-! ### Rule engine (`linter.py`) -/

/-- A configured rule, as `LintEngine.process` consumes it: a reporting key
(`error_key`, the class name) and the warning/error lists its `process_nodes`
leaves behind for a given node list.  The `warnings` accumulator is absent
from this snapshot's `rules/common.py` `LintingRule`; it is modelled from the
spec (§4.4/§6: rules accumulate both a warning list and an error list, reset
per run), which every caller of `rule.warnings` in the repository assumes. -/
structure Rule : Type where
  errorKey : Str
  run : List Node → List Str × List Str

/-- The rule loop of `LintEngine.process`: run each rule, then record its
non-empty warning and error lists under its key (Python dict assignment). -/
def processAux (nodes : List Node) :
    List Rule → List (Str × List Str) → List (Str × List Str) →
      List (Str × List Str) × List (Str × List Str)
  | [], ws, es => (ws, es)
  | r :: rest, ws, es =>
    let wr := (r.run nodes).1
    let er := (r.run nodes).2
    let ws' := if wr ≠ [] then odInsert ws r.errorKey wr else ws
    let es' := if er ≠ [] then odInsert es r.errorKey er else es
    processAux nodes rest ws' es'

/-- The `LintResults` named tuple. -/
structure LintResults : Type where
  warnings : List (Str × List Str)
  errors : List (Str × List Str)
  hasErrors : Bool

/-- `LintEngine.process` on an already-flattened node list:
`has_errors = bool(errors)`. -/
def processE (rules : List Rule) (nodes : List Node) : LintResults :=
  let we := processAux nodes rules [] []
  ⟨we.1, we.2, !we.2.isEmpty⟩

/-! ### Engine lemmas for C3 -/

theorem odInsert_of_not_mem {α : Type} {l : List (Str × α)} {k : Str} {v : α}
    (h : k ∉ l.map Prod.fst) : odInsert l k v = l ++ [(k, v)] := by
  induction l with
  | nil => rfl
  | cons hd tl ih =>
    rcases hd with ⟨k', v'⟩
    simp only [List.map_cons, List.mem_cons, not_or] at h
    rw [odInsert, if_neg fun he => h.1 he.symm, ih h.2]
    simp

/-- The warnings-dictionary entries `process` produces, in rule order. -/
def producedW (nodes : List Node) (rules : List Rule) : List (Str × List Str) :=
  rules.filterMap fun r =>
    if (r.run nodes).1 = [] then none else some (r.errorKey, (r.run nodes).1)

/-- The errors-dictionary entries `process` produces, in rule order. -/
def producedE (nodes : List Node) (rules : List Rule) : List (Str × List Str) :=
  rules.filterMap fun r =>
    if (r.run nodes).2 = [] then none else some (r.errorKey, (r.run nodes).2)

theorem keys_snoc_not_mem {α : Type} {l : List (Str × α)} {k k' : Str} {v : α}
    (h1 : k' ∉ l.map Prod.fst) (h2 : k' ≠ k) :
    k' ∉ (l ++ [(k, v)]).map Prod.fst := by
  simp [h1, h2]

theorem processAux_eq (nodes : List Node) :
    ∀ (rules : List Rule) (ws es : List (Str × List Str)),
      (∀ r ∈ rules, r.errorKey ∉ ws.map Prod.fst) →
      (∀ r ∈ rules, r.errorKey ∉ es.map Prod.fst) →
      (rules.map Rule.errorKey).Nodup →
      processAux nodes rules ws es =
        (ws ++ producedW nodes rules, es ++ producedE nodes rules) := by
  intro rules
  induction rules with
  | nil => intro ws es _ _ _; simp [processAux, producedW, producedE]
  | cons r rest ih =>
    intro ws es hws hes hnd
    simp only [List.map_cons, List.nodup_cons] at hnd
    have hkr : ∀ r' ∈ rest, r'.errorKey ≠ r.errorKey := by
      intro r' hr' he
      exact hnd.1 (he ▸ List.mem_map_of_mem Rule.errorKey hr')
    have hwsr := hws r (List.mem_cons_self _ _)
    have hesr := hes r (List.mem_cons_self _ _)
    have hwsRest : ∀ r' ∈ rest, r'.errorKey ∉ ws.map Prod.fst :=
      fun r' hr' => hws r' (List.mem_cons_of_mem _ hr')
    have hesRest : ∀ r' ∈ rest, r'.errorKey ∉ es.map Prod.fst :=
      fun r' hr' => hes r' (List.mem_cons_of_mem _ hr')
    rw [processAux]
    by_cases hw : (r.run nodes).1 = []
    · by_cases he : (r.run nodes).2 = []
      · simp only [hw, he, ne_eq, not_true_eq_false, ite_false]
        rw [ih ws es hwsRest hesRest hnd.2]
        simp [producedW, producedE, hw, he]
      · simp only [hw, he, ne_eq, not_true_eq_false, not_false_eq_true, ite_false, ite_true]
        rw [odInsert_of_not_mem hesr]
        rw [ih ws _ hwsRest
          (fun r' hr' => keys_snoc_not_mem (hesRest r' hr') (hkr r' hr')) hnd.2]
        simp [producedW, producedE, hw, he, List.append_assoc]
    · by_cases he : (r.run nodes).2 = []
      · simp only [hw, he, ne_eq, not_true_eq_false, not_false_eq_true, ite_false, ite_true]
        rw [odInsert_of_not_mem hwsr]
        rw [ih _ es
          (fun r' hr' => keys_snoc_not_mem (hwsRest r' hr') (hkr r' hr')) hesRest hnd.2]
        simp [producedW, producedE, hw, he, List.append_assoc]
      · simp only [hw, he, ne_eq, not_false_eq_true, ite_true]
        rw [odInsert_of_not_mem hwsr, odInsert_of_not_mem hesr]
        rw [ih _ _
          (fun r' hr' => keys_snoc_not_mem (hwsRest r' hr') (hkr r' hr'))
          (fun r' hr' => keys_snoc_not_mem (hesRest r' hr') (hkr r' hr')) hnd.2]
        simp [producedW, producedE, hw, he, List.append_assoc]

theorem mem_keys_producedW {nodes : List Node} {rules : List Rule} {k : Str} :
    k ∈ (producedW nodes rules).map Prod.fst ↔
      ∃ r ∈ rules, r.errorKey = k ∧ (r.run nodes).1 ≠ [] := by
  constructor
  · intro h
    rw [List.mem_map] at h
    obtain ⟨pair, hp, rfl⟩ := h
    rw [producedW, List.mem_filterMap] at hp
    obtain ⟨r, hr, hf⟩ := hp
    by_cases hw : (r.run nodes).1 = []
    · rw [if_pos hw] at hf; cases hf
    · rw [if_neg hw] at hf
      cases hf
      exact ⟨r, hr, rfl, hw⟩
  · rintro ⟨r, hr, rfl, hne⟩
    rw [List.mem_map]
    refine ⟨(r.errorKey, (r.run nodes).1), ?_, rfl⟩
    rw [producedW, List.mem_filterMap]
    exact ⟨r, hr, by simp [hne]⟩

theorem mem_keys_producedE {nodes : List Node} {rules : List Rule} {k : Str} :
    k ∈ (producedE nodes rules).map Prod.fst ↔
      ∃ r ∈ rules, r.errorKey = k ∧ (r.run nodes).2 ≠ [] := by
  constructor
  · intro h
    rw [List.mem_map] at h
    obtain ⟨pair, hp, rfl⟩ := h
    rw [producedE, List.mem_filterMap] at hp
    obtain ⟨r, hr, hf⟩ := hp
    by_cases he : (r.run nodes).2 = []
    · rw [if_pos he] at hf; cases hf
    · rw [if_neg he] at hf
      cases hf
      exact ⟨r, hr, rfl, he⟩
  · rintro ⟨r, hr, rfl, hne⟩
    rw [List.mem_map]
    refine ⟨(r.errorKey, (r.run nodes).2), ?_, rfl⟩
    rw [producedE, List.mem_filterMap]
    exact ⟨r, hr, by simp [hne]⟩

theorem producedE_eq_nil_iff {nodes : List Node} {rules : List Rule} :
    producedE nodes rules = [] ↔ ∀ r ∈ rules, (r.run nodes).2 = [] := by
  induction rules with
  | nil => simp [producedE]
  | cons r rest ih =>
    by_cases he : (r.run nodes).2 = [] <;>
      simp [producedE, List.filterMap_cons, he] at ih ⊢ <;> simp [ih, he]

theorem nodup_key_unique {rules : List Rule}
    (h : (rules.map Rule.errorKey).Nodup) {a b : Rule}
    (ha : a ∈ rules) (hb : b ∈ rules) (hk : a.errorKey = b.errorKey) : a = b := by
  induction rules with
  | nil => cases ha
  | cons r rest ih =>
    simp only [List.map_cons, List.nodup_cons] at h
    rcases List.mem_cons.mp ha with rfl | ha' <;> rcases List.mem_cons.mp hb with rfl | hb'
    · rfl
    · exact absurd (hk ▸ List.mem_map_of_mem Rule.errorKey hb') h.1
    · exact absurd (hk ▸ List.mem_map_of_mem Rule.errorKey ha') h.1
    · exact ih h.2 ha' hb'

theorem pollingRun_msg {minI : Nat} {ns : List Node} {msg : Str}
    (h : msg ∈ pollingRun minI ns) :
    ∃ n ∈ ns, n.nodeType = NodeType.expressionBinding ∧ isPref (n.path ++ cs ": ") msg := by
  unfold pollingRun at h
  rw [List.mem_flatten] at h
  obtain ⟨l, hl, hm⟩ := h
  rw [List.mem_map] at hl
  obtain ⟨n, hn, rfl⟩ := hl
  have hns : n ∈ ns := List.mem_of_mem_filter hn
  refine ⟨n, hns, ?_⟩
  cases n with
  | expressionBinding p e =>
    cases e with
    | str ex =>
      simp only [pollingVisitExpr] at hm
      by_cases h1 : sHas ex (cs "now") = true
      · rw [if_pos h1] at hm
        by_cases h2 : isValidPolling minI ex = true
        · rw [if_pos h2] at hm; cases hm
        · rw [if_neg h2] at hm
          rcases List.mem_singleton.mp hm with rfl
          refine ⟨rfl, ⟨'\'' :: (ex ++ ['\'']), ?_⟩⟩
          have hcs : cs ": '" = cs ": " ++ ['\''] := by decide
          simp [Node.path, hcs, List.append_assoc]
      · rw [if_neg h1] at hm; cases hm
    | null => simp [pollingVisitExpr] at hm
    | bool b => simp [pollingVisitExpr] at hm
    | num x => simp [pollingVisitExpr] at hm
    | arr l => simp [pollingVisitExpr] at hm
    | obj l => simp [pollingVisitExpr] at hm
  | component p a b c => simp [pollingVisitExpr] at hm
  | propertyBinding p t => simp [pollingVisitExpr] at hm
  | tagBinding p t => simp [pollingVisitExpr] at hm
  | messageHandler p a b c d e => simp [pollingVisitExpr] at hm
  | customMethod p a b c => simp [pollingVisitExpr] at hm
  | transform p a b => simp [pollingVisitExpr] at hm
  | eventHandler p a b c d => simp [pollingVisitExpr] at hm
  | property p a b => simp [pollingVisitExpr] at hm

/-! ### Claim C3 -/

/-- C3: for rules with pairwise-distinct reporting keys, `process` returns a
warnings mapping containing a rule's key iff that rule produced at least one
warning, an errors mapping containing its key iff it produced at least one
error, and `has_errors` is true iff some rule produced an error — so warnings
alone never set it.  Each message of the embedded polling rule carries the
offending node's path as a `"<path>: "` prefix.  (The `warnings` accumulator
itself is modelled from the spec, as this snapshot's `LintingRule` base
carries only `errors`; every caller in the repository assumes both.) -/
theorem C3_process_contract (rules : List Rule) (nodes : List Node)
    (hnodup : (rules.map Rule.errorKey).Nodup) :
    (∀ r ∈ rules,
      (r.errorKey ∈ (processE rules nodes).warnings.map Prod.fst ↔ (r.run nodes).1 ≠ []) ∧
      (r.errorKey ∈ (processE rules nodes).errors.map Prod.fst ↔ (r.run nodes).2 ≠ [])) ∧
    ((processE rules nodes).hasErrors = true ↔ ∃ r ∈ rules, (r.run nodes).2 ≠ []) ∧
    (∀ minI ns msg, msg ∈ pollingRun minI ns →
      ∃ n ∈ ns, n.nodeType = NodeType.expressionBinding ∧ isPref (n.path ++ cs ": ") msg) := by
  have heq := processAux_eq nodes rules [] [] (by simp) (by simp) hnodup
  have hw : (processE rules nodes).warnings = producedW nodes rules := by
    simp [processE, heq]
  have he : (processE rules nodes).errors = producedE nodes rules := by
    simp [processE, heq]
  have hhe : (processE rules nodes).hasErrors = !(producedE nodes rules).isEmpty := by
    simp [processE, heq]
  refine ⟨?_, ?_, fun minI ns msg h => pollingRun_msg h⟩
  · intro r hr
    constructor
    · rw [hw, mem_keys_producedW]
      constructor
      · rintro ⟨r', hr', hk, hne⟩
        rwa [nodup_key_unique hnodup hr hr' hk.symm]
      · intro hne
        exact ⟨r, hr, rfl, hne⟩
    · rw [he, mem_keys_producedE]
      constructor
      · rintro ⟨r', hr', hk, hne⟩
        rwa [nodup_key_unique hnodup hr hr' hk.symm]
      · intro hne
        exact ⟨r, hr, rfl, hne⟩
  · rw [hhe]
    constructor
    · intro h
      by_contra hcon
      push_neg at hcon
      rw [producedE_eq_nil_iff.mpr hcon] at h
      simp at h
    · rintro ⟨r, hr, hne⟩
      have hnil : producedE nodes rules ≠ [] :=
        fun hnil => hne (producedE_eq_nil_iff.mp hnil r hr)
      simpa [List.isEmpty_iff] using hnil

/-! ### Claim C10 -/

/-- A flattened view with a single expression binding polling too fast. -/
def c10Fm : List (Str × Json) :=
  [(cs "root.meta.name", .str (cs "root")),
   (cs "root.type", .str (cs "ia.container.coord")),
   (cs "root.props.text.binding.type", .str (cs "expression")),
   (cs "root.props.text.binding.config.expression", .str (cs "now(500)"))]

/-- The polling rule packaged for the engine (its `error_key` is the class
name; it produces no warnings). -/
def pollingRule : Rule :=
  ⟨cs "PollingIntervalRule", fun ns => ([], pollingRun 10000 ns)⟩

/-- Witness: `C3_process_contract` applied to the engine running the polling
rule over the model of a concrete view. -/
theorem C3_process_contract_witness :
    ([pollingRule].map Rule.errorKey).Nodup ∧
    ((∀ r ∈ [pollingRule],
      (r.errorKey ∈ (processE [pollingRule] (allNodes (buildModel c10Fm))).warnings.map
          Prod.fst ↔ (r.run (allNodes (buildModel c10Fm))).1 ≠ []) ∧
      (r.errorKey ∈ (processE [pollingRule] (allNodes (buildModel c10Fm))).errors.map
          Prod.fst ↔ (r.run (allNodes (buildModel c10Fm))).2 ≠ [])) ∧
    ((processE [pollingRule] (allNodes (buildModel c10Fm))).hasErrors = true ↔
      ∃ r ∈ [pollingRule], (r.run (allNodes (buildModel c10Fm))).2 ≠ []) ∧
    (∀ minI ns msg, msg ∈ pollingRun minI ns →
      ∃ n ∈ ns, n.nodeType = NodeType.expressionBinding ∧
        isPref (n.path ++ cs ": ") msg)) :=
  ⟨by decide,
   C3_process_contract [pollingRule] (allNodes (buildModel c10Fm)) (by decide)⟩

/-- C10: every binding node is appended both to the aggregate `bindings` list
and to its variant list, and every script-bearing node both to `scripts` and
to its specific list, so each occurs at least twice in the flat node list
`process` iterates; concretely, the polling rule (one message per visit) on
the model of `c10Fm` reports its violation twice. -/
theorem C10_duplicate_nodes :
    (∀ (fm : List (Str × Json)), ∀ b ∈ (buildModel fm).bindings,
      2 ≤ (allNodes (buildModel fm)).count b) ∧
    (∀ (fm : List (Str × Json)), ∀ s ∈ (buildModel fm).scripts,
      2 ≤ (allNodes (buildModel fm)).count s) ∧
    pollingRun 10000 (allNodes (buildModel c10Fm)) =
      [cs "root.props.text: 'now(500)'", cs "root.props.text: 'now(500)'"] := by
  refine ⟨?_, ?_, by decide⟩
  · intro fm b hb
    have h1 : 0 < ((buildModel fm).bindings).count b := List.count_pos_iff.mpr hb
    rcases buildModel_bindings_mem hb with h | h | h <;>
    · have h2 := List.count_pos_iff.mpr h
      simp only [allNodes, List.count_append]
      omega
  · intro fm s hs
    have h1 : 0 < ((buildModel fm).scripts).count s := List.count_pos_iff.mpr hs
    rw [buildModel_scripts_eq] at hs
    rcases List.mem_append.mp hs with hs' | h
    · rcases List.mem_append.mp hs' with hs'' | h
      · rcases List.mem_append.mp hs'' with h | h <;>
        · have h2 := List.count_pos_iff.mpr h
          simp only [allNodes, List.count_append]
          omega
      · have h2 := List.count_pos_iff.mpr h
        simp only [allNodes, List.count_append]
        omega
    · have h2 := List.count_pos_iff.mpr h
      simp only [allNodes, List.count_append]
      omega

end IgnitionLint

namespace IgnitionLint

/-! ### Visitor dispatch (`node_types.ViewNode.accept` + `rules/common.py`) -/

/-- A rule object as `getattr` sees it.  `rules/common.py`'s `NodeVisitor`
defines no-op methods for nine node-type tags (and `visit_generic`); a
subclass may override any of them (`some f`), and may additionally define
attributes — such as a `visit_script` method — that `accept` never looks up.
Visit effects are modelled as the message lists the calls append. -/
structure Visitor : Type where
  visitComponent : Option (Node → List Str) := none
  visitExpressionBinding : Option (Node → List Str) := none
  visitPropertyBinding : Option (Node → List Str) := none
  visitTagBinding : Option (Node → List Str) := none
  visitMessageHandler : Option (Node → List Str) := none
  visitCustomMethod : Option (Node → List Str) := none
  visitTransform : Option (Node → List Str) := none
  visitEventHandler : Option (Node → List Str) := none
  visitProperty : Option (Node → List Str) := none
  visitExpressionStructBinding : Option (Node → List Str) := none
  visitQueryBinding : Option (Node → List Str) := none
  visitGeneric : Option (Node → List Str) := none
  visitScriptAttr : Option (Node → List Str) := none

/-- The no-op body (`pass`) of the `NodeVisitor` base methods. -/
def noopVisit : Node → List Str := fun _ => []

/-- `getattr(visitor, f"visit_{node_type.value}", None)`: for the nine tags
whose methods `NodeVisitor` defines, the subclass override or the inherited
no-op; for `expression_struct_binding` and `query_binding` (which
`NodeVisitor` does not define), only a subclass-defined attribute. -/
def methodFor (v : Visitor) : NodeType → Option (Node → List Str)
  | .component => some (v.visitComponent.getD noopVisit)
  | .expressionBinding => some (v.visitExpressionBinding.getD noopVisit)
  | .propertyBinding => some (v.visitPropertyBinding.getD noopVisit)
  | .tagBinding => some (v.visitTagBinding.getD noopVisit)
  | .messageHandler => some (v.visitMessageHandler.getD noopVisit)
  | .customMethod => some (v.visitCustomMethod.getD noopVisit)
  | .transform => some (v.visitTransform.getD noopVisit)
  | .eventHandler => some (v.visitEventHandler.getD noopVisit)
  | .property => some (v.visitProperty.getD noopVisit)
  | .expressionStructBinding => v.visitExpressionStructBinding
  | .queryBinding => v.visitQueryBinding

/-- `ViewNode.accept`: call the method matching the tag when `getattr` finds
one, otherwise `visit_generic`. -/
def acceptV (n : Node) (v : Visitor) : List Str :=
  match methodFor v n.nodeType with
  | some m => m n
  | none => (v.visitGeneric.getD noopVisit) n

/-! ### Claim C7 -/

/-- A rule that implements only a family-level `visit_script` method (and no
subtype-specific methods). -/
def scriptOnlyVisitor : Visitor :=
  { visitScriptAttr := some fun n => [n.path] }

/-- A message-handler node for exercising the dispatch. -/
def c7MsgNode : Node :=
  .messageHandler (cs "root.scripts.messageHandlers[0]") (.str []) (.str (cs "M"))
    (.bool false) (.bool false) (.bool false)

/-- C7 is false as stated: a visitor implementing only a family-level
`visit_script` method is never invoked for a message-handler node — `accept`
finds `NodeVisitor`'s inherited no-op `visit_message_handler` and returns
nothing, although the `visit_script` attribute would have produced a
message. -/
theorem C7_counterexample :
    acceptV c7MsgNode scriptOnlyVisitor = [] ∧
    scriptOnlyVisitor.visitScriptAttr = some (fun n => [n.path]) ∧
    (fun (n : Node) => [n.path]) c7MsgNode = [cs "root.scripts.messageHandlers[0]"] ∧
    cs "root.scripts.messageHandlers[0]" ≠ [] := by
  exact ⟨rfl, rfl, rfl, by decide⟩

/-- C7, as amended: `accept` routes to the visitor method matching the node's
tag — a subclass override when present, otherwise `NodeVisitor`'s inherited
no-op; the `visit_generic` fallback is reached only for tags `NodeVisitor`
does not define (`expression_struct_binding`, `query_binding`, never produced
by the builder); there is no family-level fallback, so a visitor whose
script-subtype methods are not overridden contributes nothing on script
nodes, whatever its `visit_script` or `visit_generic` attributes. -/
theorem C7_dispatch_by_tag (v : Visitor) (f : Node → List Str) (n : Node) :
    (n.nodeType = NodeType.component → v.visitComponent = some f →
      acceptV n v = f n) ∧
    (n.nodeType = NodeType.expressionBinding → v.visitExpressionBinding = some f →
      acceptV n v = f n) ∧
    (n.nodeType = NodeType.messageHandler → v.visitMessageHandler = some f →
      acceptV n v = f n) ∧
    (n.nodeType = NodeType.customMethod → v.visitCustomMethod = some f →
      acceptV n v = f n) ∧
    (n.nodeType = NodeType.transform → v.visitTransform = some f →
      acceptV n v = f n) ∧
    (n.nodeType = NodeType.eventHandler → v.visitEventHandler = some f →
      acceptV n v = f n) ∧
    ((n.nodeType = NodeType.messageHandler ∨ n.nodeType = NodeType.customMethod ∨
        n.nodeType = NodeType.transform ∨ n.nodeType = NodeType.eventHandler) →
      v.visitMessageHandler = none → v.visitCustomMethod = none →
      v.visitTransform = none → v.visitEventHandler = none →
      acceptV n v = []) := by
  refine ⟨?_, ?_, ?_, ?_, ?_, ?_, ?_⟩ <;> intro ht
  · intro hf; rw [acceptV, ht, methodFor, hf]; rfl
  · intro hf; rw [acceptV, ht, methodFor, hf]; rfl
  · intro hf; rw [acceptV, ht, methodFor, hf]; rfl
  · intro hf; rw [acceptV, ht, methodFor, hf]; rfl
  · intro hf; rw [acceptV, ht, methodFor, hf]; rfl
  · intro hf; rw [acceptV, ht, methodFor, hf]; rfl
  · intro h1 h2 h3 h4
    rcases ht with ht | ht | ht | ht <;>
      [rw [acceptV, ht, methodFor, h1]; rw [acceptV, ht, methodFor, h2];
       rw [acceptV, ht, methodFor, h3]; rw [acceptV, ht, methodFor, h4]] <;> rfl

/-- Witness: a visitor overriding only `visit_component` collects exactly the
component nodes; a script node under the same visitor contributes nothing. -/
theorem C7_dispatch_by_tag_witness :
    (Node.component (cs "root") (.str (cs "root")) (.str (cs "t")) []).nodeType =
        NodeType.component ∧
    (Visitor.mk (some fun n => [n.path]) none none none none none none none none
        none none none none).visitComponent = some (fun n => [n.path]) ∧
    acceptV (Node.component (cs "root") (.str (cs "root")) (.str (cs "t")) [])
        (Visitor.mk (some fun n => [n.path]) none none none none none none none none
          none none none none) =
      (fun (n : Node) => [n.path])
        (Node.component (cs "root") (.str (cs "root")) (.str (cs "t")) []) :=
  ⟨rfl, rfl,
   (C7_dispatch_by_tag
     (Visitor.mk (some fun n => [n.path]) none none none none none none none none
       none none none none)
     (fun n => [n.path])
     (Node.component (cs "root") (.str (cs "root")) (.str (cs "t")) [])).1 rfl rfl⟩

/-! ### Claim C8 -/

/-- C8: with `minimum_interval = 10000`, an expression binding whose
expression is `now()` is reported (one violation naming the node's path), so
is `now(500)`; `now(0)` and `now(20000)` produce no violation — at every
node path. -/
theorem C8_polling_boundary (path : Str) :
    pollingVisitExpr 10000 (.expressionBinding path (.str (cs "now()"))) =
      [path ++ cs ": 'now()'"] ∧
    pollingVisitExpr 10000 (.expressionBinding path (.str (cs "now(500)"))) =
      [path ++ cs ": 'now(500)'"] ∧
    pollingVisitExpr 10000 (.expressionBinding path (.str (cs "now(0)"))) = [] ∧
    pollingVisitExpr 10000 (.expressionBinding path (.str (cs "now(20000)"))) = [] := by
  refine ⟨?_, ?_, ?_, ?_⟩
  · have h1 : sHas (cs "now()") (cs "now") = true := by decide
    have h2 : isValidPolling 10000 (cs "now()") = false := by decide
    have h3 : cs ": '" ++ (cs "now()" ++ ['\'']) = cs ": 'now()'" := by decide
    simp [pollingVisitExpr, h1, h2, List.append_assoc, h3]
  · have h1 : sHas (cs "now(500)") (cs "now") = true := by decide
    have h2 : isValidPolling 10000 (cs "now(500)") = false := by decide
    have h3 : cs ": '" ++ (cs "now(500)" ++ ['\'']) = cs ": 'now(500)'" := by decide
    simp [pollingVisitExpr, h1, h2, List.append_assoc, h3]
  · have h2 : isValidPolling 10000 (cs "now(0)") = true := by decide
    simp [pollingVisitExpr, h2]
  · have h2 : isValidPolling 10000 (cs "now(20000)") = true := by decide
    simp [pollingVisitExpr, h2]

/-! ### PylintScriptRule line mapping (`rules/lint_script.py`) -/

/-- A script node as `_run_pylint_batch` consumes it: its function signature
line and its opaque script text. -/
structure ScriptObj : Type where
  functionDef : Str
  script : Str

/-- `ScriptNode.get_formatted_script`: empty scripts become an indented
`pass`, then the signature line is prepended. -/
def getFormattedScript (so : ScriptObj) : Str :=
  let sc := if pyStrip so.script = [] then cs "\tpass" else so.script
  so.functionDef ++ '\n' :: sc

/-- `s.count('\n')`. -/
def countNL (s : Str) : Nat := (s.filter (fun c => c = '\n')).length

/-- `formatted_script.count('\n') + 1`. -/
def numLines (s : Str) : Nat := countNL s + 1

/-- The six preamble entries of the combined unit (the pylint directive, the
simulated-environment stubs, and a blank separator). -/
def pylintPreamble : List Str :=
  [cs "#pylint: disable=unused-argument,missing-docstring,invalid-name,redefined-outer-name",
   cs "# Stub for common globals, and to simulate the Ignition environment",
   cs "system = None  # Simulated Ignition system object",
   cs "self = {} # Simulated self object for script context",
   cs "event = {}  # Simulated event object",
   cs ""]

/-- The script loop of `_run_pylint_batch`: emits, per script, the header
comment, the formatted script and a blank separator, and records
`line_map[line] = path` for `line_count ≤ line < line_count + script_lines`
after bumping `line_count` past the header.  `line_count` starts at 1 and is
never advanced past the six preamble entries — that is the defect under
test. -/
def combineLoop : List (Str × ScriptObj) → Nat → Nat → List Str × List (Nat × Str)
  | [], _, _ => ([], [])
  | (path, so) :: rest, i, lineCount =>
    let header := cs "# Script " ++ natStr (i + 1) ++ cs ": " ++ path
    let fs := getFormattedScript so
    let scriptLines := numLines fs
    let mapFrag := (List.range scriptLines).map fun j => (lineCount + 1 + j, path)
    let er := combineLoop rest (i + 1) (lineCount + 1 + scriptLines + 1)
    (header :: fs :: cs "" :: er.1, mapFrag ++ er.2)

/-- The combined entry list and the `line_map` of `_run_pylint_batch`. -/
def runPylintBatchSetup (scripts : List (Str × ScriptObj)) :
    List Str × List (Nat × Str) :=
  let er := combineLoop scripts 0 1
  (pylintPreamble ++ er.1, er.2)

/-- Split at newline characters (the inverse of `"\n".join`): the physical
lines of the combined unit are the concatenation of the entries' lines. -/
def splitNLAux : Str → Str → List Str
  | [], cur => [cur.reverse]
  | '\n' :: rest, cur => cur.reverse :: splitNLAux rest []
  | c :: rest, cur => splitNLAux rest (c :: cur)

/-- The lines of one entry. -/
def splitNL (s : Str) : List Str := splitNLAux s []

/-- The physical lines (1-based positions) of the combined source unit
`"\n".join(combined_scripts)`. -/
def combinedLines (scripts : List (Str × ScriptObj)) : List Str :=
  ((runPylintBatchSetup scripts).1.map splitNL).flatten

/-- The *actual* 1-based first line of each script's formatted text within
the combined unit: six preamble lines, then per script a header line, the
script's own lines, and a blank line. -/
def actualStartsLoop : List (Str × ScriptObj) → Nat → List (Str × Nat)
  | [], _ => []
  | (path, so) :: rest, emitted =>
    let fsLines := numLines (getFormattedScript so)
    (path, emitted + 2) :: actualStartsLoop rest (emitted + 1 + fsLines + 1)

/-- Actual start lines, starting after the six preamble lines. -/
def actualStarts (scripts : List (Str × ScriptObj)) : List (Str × Nat) :=
  actualStartsLoop scripts pylintPreamble.length

/-- `for ln in sorted(line_map.keys(), reverse=True): if ln <= line_num:`
— the greatest recorded line at most `l` (keys are distinct, so keeping the
first maximum is exact). -/
def attributePath (lineMap : List (Nat × Str)) (l : Nat) : Option (Nat × Str) :=
  lineMap.foldl
    (fun best e =>
      if e.1 ≤ l then
        match best with
        | none => some e
        | some b => if b.1 < e.1 then some e else some b
      else best)
    none

/-- `min(ln for ln, path in line_map.items() if path == script_path)`. -/
def scriptStartLine (lineMap : List (Nat × Str)) (p : Str) : Option Nat :=
  lineMap.foldl
    (fun best e =>
      if e.2 = p then
        match best with
        | none => some e.1
        | some b => some (Nat.min b e.1)
      else best)
    none

/-- The diagnostic attribution of `_run_pylint_batch`: the owning script and
the relative line `line_num - script_start_line + 1`. -/
def attributeDiag (lineMap : List (Nat × Str)) (l : Nat) : Option (Str × Nat) :=
  match attributePath lineMap l with
  | some e =>
    match scriptStartLine lineMap e.2 with
    | some st => some (e.2, l - st + 1)
    | none => none
  | none => none

/-! ### Claim C5 -/

/-- Two three-line scripts, as the failing input. -/
def c5Scripts : List (Str × ScriptObj) :=
  [(cs "p1", ⟨cs "def onMessageReceived(self, payload):", cs "\tx = 1\n\treturn x"⟩),
   (cs "p2", ⟨cs "def transform(self, value):", cs "\ty = 2\n\treturn y"⟩)]

/-- C5 fails on the code: `line_count` starts at 1 and is never advanced past
the six preamble lines, so every recorded start is six less than the script's
actual first line in the combined unit (recorded 2 vs. actual 8 for the first
script), and a diagnostic at combined line 9 — physically the second line of
the *first* script — is attributed to the *second* script at relative line 3.
The relative-line arithmetic itself (greatest recorded start at most L, then
relative line L − start + 1: recorded starts 10/40 send line 45 to the second
script at relative 6) matches the claim; the recorded starts do not.  The
sibling implementation `rules/scripts/lint_script.py` advances `line_count`
by `len(combined_scripts)` over the same preamble, confirming the intent the
claim states. -/
theorem C5_line_map_off_by_preamble :
    (runPylintBatchSetup c5Scripts).2 =
      [(2, cs "p1"), (3, cs "p1"), (4, cs "p1"),
       (7, cs "p2"), (8, cs "p2"), (9, cs "p2")] ∧
    actualStarts c5Scripts = [(cs "p1", 8), (cs "p2", 13)] ∧
    scriptStartLine (runPylintBatchSetup c5Scripts).2 (cs "p1") = some 2 ∧
    (2 : Nat) ≠ 8 ∧
    (combinedLines c5Scripts).get? (8 - 1) =
      some (cs "def onMessageReceived(self, payload):") ∧
    (combinedLines c5Scripts).get? (9 - 1) = some (cs "\tx = 1") ∧
    attributeDiag (runPylintBatchSetup c5Scripts).2 9 = some (cs "p2", 3) ∧
    attributeDiag [(10, cs "a"), (40, cs "b")] 45 = some (cs "b", 6) := by
  decide

/-! ### NamePatternRule (`rules/name_pattern.py`), default configuration -/

/-- ASCII uppercase letter (`A`–`Z`, code points 65–90). -/
def isUpperA (c : Char) : Bool := 65 ≤ c.toNat ∧ c.toNat ≤ 90

/-- ASCII lowercase letter (`a`–`z`, code points 97–122). -/
def isLowerA (c : Char) : Bool := 97 ≤ c.toNat ∧ c.toNat ≤ 122

/-- ASCII letter. -/
def isAlphaA (c : Char) : Bool := isUpperA c || isLowerA c

/-- ASCII letter or digit (the names under test are ASCII; Python's `re`
classes coincide with these on that range). -/
def isAlnumA (c : Char) : Bool := isAlphaA c || c.isDigit

/-- `str.upper()` on one character. -/
def toUpperChar (c : Char) : Char :=
  if isLowerA c then Char.ofNat (c.toNat - 32) else c

/-- `str.lower()` on one character. -/
def toLowerChar (c : Char) : Char :=
  if isUpperA c then Char.ofNat (c.toNat + 32) else c

/-- `s.upper()`. -/
def sUpper (s : Str) : Str := s.map toUpperChar

/-- `s.lower()`. -/
def sLower (s : Str) : Str := s.map toLowerChar

/-- `s.capitalize()`: first character uppercased, the rest lowercased. -/
def pyCapitalize (s : Str) : Str :=
  match s with
  | [] => []
  | c :: rest => toUpperChar c :: sLower rest

/-- A delimiter of `re.split(r'[-_\s]+', ...)`. -/
def isDelim (c : Char) : Bool := c = '-' || c = '_' || isSpaceChar c

/-- The splitting loop of `re.split(r'[-_\s]+', s)`: cut at each maximal
delimiter run (empty pieces arise only at the ends).  Each step consumes at
least one character, so fuel `s.length` makes the recursion structural
without ever hitting the zero-fuel branch. -/
def delimSplitAux : Nat → Str → Str → List Str
  | 0, s, cur => [cur.reverse ++ s]
  | fuel + 1, [], cur => [cur.reverse]
  | fuel + 1, c :: rest, cur =>
    if isDelim c then cur.reverse :: delimSplitAux fuel (rest.dropWhile isDelim) []
    else delimSplitAux fuel rest (c :: cur)

/-- `re.split(r'[-_\s]+', s)`. -/
def delimSplit (s : Str) : List Str := delimSplitAux s.length s []

/-- Greedy run of ASCII lowercase letters. -/
def takeLowersA : Str → Str × Str
  | [] => ([], [])
  | c :: rest =>
    if isLowerA c then
      let dr := takeLowersA rest
      (c :: dr.1, dr.2)
    else ([], c :: rest)

/-- The scanning loop of
`re.findall(r'[A-Z][a-z]*|[a-z]+|[A-Z]+(?=[A-Z][a-z]|$)', s)`: at an
uppercase letter the first alternative always matches (one capital plus its
following lowercase run — the third alternative is unreachable behind it); at
a lowercase letter the second matches the whole lowercase run; other
characters are skipped.  Fueled by `s.length` (each step consumes at least
one character). -/
def camelScanAux : Nat → Str → List Str
  | 0, _ => []
  | _ + 1, [] => []
  | fuel + 1, c :: rest =>
    if isUpperA c || isLowerA c then
      (c :: (takeLowersA rest).1) :: camelScanAux fuel (takeLowersA rest).2
    else camelScanAux fuel rest

/-- `re.findall(r'[A-Z][a-z]*|[a-z]+|[A-Z]+(?=[A-Z][a-z]|$)', s)`. -/
def camelScan (s : Str) : List Str := camelScanAux s.length s

/-- `_split_name_into_parts`: delimiter split of the stripped name; if that
yields a single truthy token, try the camel/Pascal boundary split of the
(unstripped) name; drop empty pieces last. -/
def splitNameIntoParts (name : Str) : List Str :=
  let parts := delimSplit (pyStrip name)
  let parts :=
    if parts.length = 1 ∧ parts.headD [] ≠ [] then
      let camel := camelScan name
      if 1 < camel.length then camel else parts
    else parts
  parts.filter (fun p => p ≠ [])

/-- The `common_abbreviations` set, in source order.  (Python iterates it in
unspecified set order; every use below is order-insensitive membership, and
the length-sorted replacement loop is evaluated only in states the theorems
pin down.) -/
def commonAbbreviations : List Str :=
  [cs "API", cs "HTTP", cs "HTTPS", cs "XML", cs "JSON", cs "SQL", cs "URL", cs "URI",
   cs "UUID", cs "CPU", cs "GPU", cs "RAM", cs "SSD", cs "HDD", cs "PDF", cs "CSV",
   cs "ZIP", cs "GIF", cs "PNG", cs "JPG", cs "JPEG", cs "SVG", cs "CSS", cs "HTML",
   cs "JS", cs "TS", cs "PHP", cs "ASP", cs "JSP", cs "CGI", cs "FTP", cs "SSH",
   cs "TCP", cs "UDP", cs "IP", cs "DNS", cs "DHCP", cs "VPN", cs "SSL", cs "TLS",
   cs "JWT", cs "CRUD", cs "REST", cs "SOAP", cs "AJAX", cs "DOM", cs "UI", cs "UX",
   cs "GUI", cs "CLI", cs "OS", cs "iOS", cs "macOS", cs "AWS", cs "GCP", cs "IBM",
   cs "AI", cs "ML", cs "NLP", cs "OCR", cs "QR", cs "RFID", cs "NFC", cs "GPS",
   cs "LED", cs "LCD", cs "OLED", cs "CRT", cs "ID"]

/-- Stable-enough descending length order for
`sorted(self.all_abbreviations, key=len, reverse=True)` (ties are in
unspecified set order in Python; no theorem depends on the tie order). -/
def insertByLen (x : Str) : List Str → List Str
  | [] => [x]
  | y :: ys => if y.length < x.length then x :: y :: ys else y :: insertByLen x ys

/-- The abbreviation iteration order of `_process_abbreviations`. -/
def sortedAbbrevs : List Str := commonAbbreviations.foldr insertByLen []

/-- The replacement loop of Python `s.replace(old, new)` (all non-overlapping
occurrences, left to right), fueled by `s.length` (adequate since `old` is
never empty at the call sites). -/
def replaceAllAux (old new : Str) : Nat → Str → Str
  | 0, s => s
  | fuel + 1, s =>
    match firstOcc s old with
    | some i => s.take i ++ new ++ replaceAllAux old new fuel (s.drop (i + old.length))
    | none => s

/-- Python `s.replace(old, new)` for non-empty `old`. -/
def replaceAll (s old new : Str) : Str :=
  match old with
  | [] => s
  | _ :: _ => replaceAllAux old new s.length s

/-- `_adjust_abbreviation_for_camel_case`: each present variation (upper,
lower, capitalized) of the abbreviation is rewritten to its uppercase form,
threading the partially rewritten name. -/
def adjustAbbrevCamel (name abb : Str) : Str :=
  [sUpper abb, sLower abb, pyCapitalize abb].foldl
    (fun n v => if sHas n v then replaceAll n v (sUpper abb) else n) name

/-- Python `s.split()` (no separator): whitespace runs delimit tokens, no
empty pieces. -/
def pySplitWSAux : Str → Str → List Str
  | [], cur => if cur = [] then [] else [cur.reverse]
  | c :: rest, cur =>
    if isSpaceChar c then
      if cur = [] then pySplitWSAux rest [] else cur.reverse :: pySplitWSAux rest []
    else pySplitWSAux rest (c :: cur)

/-- Python `s.split()`. -/
def pySplitWS (s : Str) : List Str := pySplitWSAux s []

/-- `' '.join(l)` and friends: join with a separator. -/
def joinSep (sep : Str) : List Str → Str
  | [] => []
  | [x] => x
  | x :: xs => x ++ sep ++ joinSep sep xs

/-- `_adjust_abbreviation_for_title_case`: words equal (case-insensitively)
to the abbreviation become its uppercase form. -/
def adjustAbbrevTitle (name abb : Str) : Str :=
  joinSep [' ']
    ((pySplitWS name).map fun w => if sUpper w = sUpper abb then sUpper abb else w)

/-- The supported naming conventions. -/
inductive Convention : Type where
  | pascal
  | camel
  | snake
  | kebab
  | screaming
  | title
  | lower
deriving DecidableEq

/-- `pattern_description` of each convention. -/
def Convention.description : Convention → Str
  | .pascal => cs "PascalCase"
  | .camel => cs "camelCase"
  | .snake => cs "snake_case"
  | .kebab => cs "kebab-case"
  | .screaming => cs "SCREAMING_SNAKE_CASE"
  | .title => cs "Title Case"
  | .lower => cs "lower case with spaces (e.g., my button, data table)"

/-- `_process_abbreviations` under the default configuration (no custom
pattern, auto-detected abbreviation set): for every abbreviation occurring —
as written — in the uppercased *original* name, rewrite the threaded name per
the convention. -/
def processAbbreviations (conv : Convention) (name : Str) : Str :=
  sortedAbbrevs.foldl
    (fun processed abb =>
      if sHas (sUpper name) abb then
        match conv with
        | .pascal | .camel => adjustAbbrevCamel processed abb
        | .snake | .kebab =>
          replaceAll (replaceAll processed (sUpper abb) (sLower abb)) (sLower abb) (sLower abb)
        | .screaming => sUpper processed
        | .title => adjustAbbrevTitle processed abb
        | .lower => sLower processed
      else processed)
    name

/-- `_to_pascal_case`. -/
def toPascalCase (name : Str) : Str :=
  ((splitNameIntoParts name).map fun p =>
    if sUpper p ∈ commonAbbreviations then sUpper p else pyCapitalize p).flatten

/-- `_to_camel_case`. -/
def toCamelCase (name : Str) : Str :=
  match splitNameIntoParts name with
  | [] => []
  | first :: rest =>
    ((if sUpper first ∈ commonAbbreviations then sUpper first else sLower first) ::
      rest.map fun p =>
        if sUpper p ∈ commonAbbreviations then sUpper p else pyCapitalize p).flatten

/-- `_to_snake_case` (both branches lowercase the part). -/
def toSnakeCase (name : Str) : Str :=
  joinSep ['_'] ((splitNameIntoParts name).map sLower)

/-- `_to_kebab_case` (both branches lowercase the part). -/
def toKebabCase (name : Str) : Str :=
  joinSep ['-'] ((splitNameIntoParts name).map sLower)

/-- `_to_title_case`. -/
def toTitleCase (name : Str) : Str :=
  joinSep [' ']
    ((splitNameIntoParts name).map fun p =>
      if sUpper p ∈ commonAbbreviations then sUpper p else pyCapitalize p)

/-- `_to_lower_case`. -/
def toLowerCaseConv (name : Str) : Str :=
  joinSep [' '] ((splitNameIntoParts name).map sLower)

/-- `_suggest_name` for a named convention. -/
def suggestName : Convention → Str → Str
  | .pascal, name => toPascalCase name
  | .camel, name => toCamelCase name
  | .snake, name => toSnakeCase name
  | .kebab, name => toKebabCase name
  | .screaming, name => sUpper (toSnakeCase name)
  | .title, name => toTitleCase name
  | .lower, name => toLowerCaseConv name

/-- `^[A-Z][a-zA-Z0-9]*$`. -/
def matchPascal : Str → Bool
  | [] => false
  | c :: rest => isUpperA c && rest.all isAlnumA

/-- `^[a-z][a-zA-Z0-9]*$`. -/
def matchCamel : Str → Bool
  | [] => false
  | c :: rest => isLowerA c && rest.all isAlnumA

/-- `^[a-z][a-z0-9_]*$`. -/
def matchSnake : Str → Bool
  | [] => false
  | c :: rest => isLowerA c && rest.all fun d => isLowerA d || d.isDigit || d = '_'

/-- `^[a-z][a-z0-9-]*$`. -/
def matchKebab : Str → Bool
  | [] => false
  | c :: rest => isLowerA c && rest.all fun d => isLowerA d || d.isDigit || d = '-'

/-- `^[A-Z][A-Z0-9_]*$`. -/
def matchScreaming : Str → Bool
  | [] => false
  | c :: rest => isUpperA c && rest.all fun d => isUpperA d || d.isDigit || d = '_'

/-- The tail of `^[A-Z][a-z]*(\s[A-Z][a-z]*)*$` after the leading capital:
lowercase letters, or a single whitespace followed by the next capital. -/
def titleTail : Str → Bool
  | [] => true
  | [c] => isLowerA c
  | c :: d :: rest =>
    if isLowerA c then titleTail (d :: rest)
    else if isSpaceChar c then isUpperA d && titleTail rest
    else false

/-- `^[A-Z][a-z]*(\s[A-Z][a-z]*)*$`. -/
def matchTitle : Str → Bool
  | [] => false
  | c :: rest => isUpperA c && titleTail rest

/-- `^[a-z][a-z\s]*$`. -/
def matchLowerConv : Str → Bool
  | [] => false
  | c :: rest => isLowerA c && rest.all fun d => isLowerA d || isSpaceChar d

/-- `re.match(pattern, processed_name)` per convention. -/
def matchConv : Convention → Str → Bool
  | .pascal, s => matchPascal s
  | .camel, s => matchCamel s
  | .snake, s => matchSnake s
  | .kebab, s => matchKebab s
  | .screaming, s => matchScreaming s
  | .title, s => matchTitle s
  | .lower, s => matchLowerConv s

/-- `_validate_name` under the default configuration (skip names `{'root'}`,
no forbidden names, `min_length` 1, no `max_length`, a named convention, no
node-specific overrides); `ntStr` is the reported `node_type.value`. -/
def validateName (conv : Convention) (ntStr name : Str) : List Str :=
  if name = cs "root" then []
  else if name.length < 1 then
    [cs "Name '" ++ name ++ cs "' is too short (minimum 1 characters) for " ++ ntStr]
  else
    let processed := processAbbreviations conv name
    if matchConv conv processed then []
    else
      let sugg := suggestName conv name
      [cs "Name '" ++ name ++ cs "' doesn't follow " ++ conv.description ++
        cs " for " ++ ntStr ++
        (if sugg ≠ [] then cs " (suggestion: '" ++ sugg ++ cs "')" else [])]

/-! ### Character-case lemmas -/

theorem toUpperChar_of_not_lower {c : Char} (h : ¬isLowerA c = true) :
    toUpperChar c = c := by
  simp [toUpperChar, h]

theorem toLowerChar_of_not_upper {c : Char} (h : ¬isUpperA c = true) :
    toLowerChar c = c := by
  simp [toLowerChar, h]

theorem isUpperA_toUpperChar_of_lower {c : Char} (h : isLowerA c = true) :
    isUpperA (toUpperChar c) = true := by
  rw [toUpperChar, if_pos h]
  simp only [isLowerA, Bool.and_eq_true, decide_eq_true_eq] at h
  have hm1 : 65 ≤ c.toNat - 32 := by omega
  have hm2 : c.toNat - 32 ≤ 90 := by omega
  generalize hg : c.toNat - 32 = m at hm1 hm2
  interval_cases m <;> decide

theorem isLowerA_toLowerChar_of_upper {c : Char} (h : isUpperA c = true) :
    isLowerA (toLowerChar c) = true := by
  rw [toLowerChar, if_pos h]
  simp only [isUpperA, Bool.and_eq_true, decide_eq_true_eq] at h
  have hm1 : 97 ≤ c.toNat + 32 := by omega
  have hm2 : c.toNat + 32 ≤ 122 := by omega
  generalize hg : c.toNat + 32 = m at hm1 hm2
  interval_cases m <;> decide

theorem isLowerA_eq_false_of_upper {c : Char} (h : isUpperA c = true) :
    isLowerA c = false := by
  simp only [isUpperA, Bool.and_eq_true, decide_eq_true_eq] at h
  have : ¬97 ≤ c.toNat := by omega
  simp [isLowerA, this]

theorem isUpperA_eq_false_of_lower {c : Char} (h : isLowerA c = true) :
    isUpperA c = false := by
  simp only [isLowerA, Bool.and_eq_true, decide_eq_true_eq] at h
  have : ¬c.toNat ≤ 90 := by omega
  simp [isUpperA, this]

theorem isUpperA_toUpperChar_of_alpha {c : Char} (h : isAlphaA c = true) :
    isUpperA (toUpperChar c) = true := by
  rcases Bool.or_eq_true _ _ |>.mp h with hu | hl
  · rwa [toUpperChar_of_not_lower (by simp [isLowerA_eq_false_of_upper hu])]
  · exact isUpperA_toUpperChar_of_lower hl

theorem isLowerA_toLowerChar_of_alpha {c : Char} (h : isAlphaA c = true) :
    isLowerA (toLowerChar c) = true := by
  rcases Bool.or_eq_true _ _ |>.mp h with hu | hl
  · exact isLowerA_toLowerChar_of_upper hu
  · rwa [toLowerChar_of_not_upper (by simp [isUpperA_eq_false_of_lower hl])]

theorem isAlphaA_of_upper {c : Char} (h : isUpperA c = true) : isAlphaA c = true := by
  simp [isAlphaA, h]

theorem isAlphaA_of_lower {c : Char} (h : isLowerA c = true) : isAlphaA c = true := by
  simp [isAlphaA, h]

theorem isAlnumA_of_alpha {c : Char} (h : isAlphaA c = true) : isAlnumA c = true := by
  simp [isAlnumA, h]

/-! ### String-level lemmas for the naming round trip -/

theorem all_isLowerA_sLower {s : Str} (h : s.all isAlphaA = true) :
    (sLower s).all isLowerA = true := by
  rw [sLower, List.all_eq_true] at *
  intro c hc
  rw [List.mem_map] at hc
  obtain ⟨d, hd, rfl⟩ := hc
  exact isLowerA_toLowerChar_of_alpha (h d hd)

theorem all_isAlphaA_sLower {s : Str} (h : s.all isAlphaA = true) :
    (sLower s).all isAlphaA = true := by
  rw [List.all_eq_true] at *
  intro c hc
  rw [sLower, List.mem_map] at hc
  obtain ⟨d, hd, rfl⟩ := hc
  exact isAlphaA_of_lower (isLowerA_toLowerChar_of_alpha (h d hd))

theorem all_flattenP {P : Char → Bool} :
    ∀ {l : List Str}, (∀ x ∈ l, x.all P = true) → l.flatten.all P = true := by
  intro l
  induction l with
  | nil => intro _; rfl
  | cons x xs ih =>
    intro h
    rw [List.flatten_cons, List.all_append]
    exact Bool.and_eq_true _ _ |>.mpr
      ⟨h x (List.mem_cons_self _ _), ih fun y hy => h y (List.mem_cons_of_mem _ hy)⟩

/-- The part of `joinSep sep (x :: ws)` after `x`. -/
def sepJoined (sep : Str) : List Str → Str
  | [] => []
  | w :: ws => sep ++ w ++ sepJoined sep ws

theorem joinSep_cons (sep x : Str) :
    ∀ (xs : List Str), joinSep sep (x :: xs) = x ++ sepJoined sep xs := by
  intro xs
  induction xs generalizing x with
  | nil => simp [joinSep, sepJoined]
  | cons y ys ih =>
    have h1 : joinSep sep (x :: y :: ys) = x ++ sep ++ joinSep sep (y :: ys) := rfl
    rw [h1, ih y]
    simp [sepJoined, List.append_assoc]

theorem all_sepJoined {P : Char → Bool} {sep : Str} (hsep : sep.all P = true) :
    ∀ {ws : List Str}, (∀ w ∈ ws, w.all P = true) → (sepJoined sep ws).all P = true := by
  intro ws
  induction ws with
  | nil => intro _; rfl
  | cons w ws' ih =>
    intro h
    rw [sepJoined, List.all_append, List.all_append]
    refine Bool.and_eq_true _ _ |>.mpr ⟨Bool.and_eq_true _ _ |>.mpr ⟨hsep, ?_⟩, ?_⟩
    · exact h w (List.mem_cons_self _ _)
    · exact ih fun y hy => h y (List.mem_cons_of_mem _ hy)

theorem mem_insertByLen {x y : Str} :
    ∀ {l : List Str}, x ∈ insertByLen y l → x = y ∨ x ∈ l := by
  intro l
  induction l with
  | nil => intro h; simpa [insertByLen] using h
  | cons z zs ih =>
    intro h
    rw [insertByLen] at h
    by_cases hc : z.length < y.length
    · rw [if_pos hc] at h
      rcases List.mem_cons.mp h with rfl | h'
      · exact Or.inl rfl
      · exact Or.inr h'
    · rw [if_neg hc] at h
      rcases List.mem_cons.mp h with rfl | h'
      · exact Or.inr (List.mem_cons_self _ _)
      · rcases ih h' with h'' | h''
        · exact Or.inl h''
        · exact Or.inr (List.mem_cons_of_mem _ h'')

theorem mem_sortedAbbrevs {x : Str} (h : x ∈ sortedAbbrevs) :
    x ∈ commonAbbreviations := by
  have hgen : ∀ (l init : List Str), x ∈ l.foldr insertByLen init → x ∈ init ∨ x ∈ l := by
    intro l
    induction l with
    | nil => intro init h'; exact Or.inl h'
    | cons z zs ih =>
      intro init h'
      rw [List.foldr_cons] at h'
      rcases mem_insertByLen h' with rfl | h''
      · exact Or.inr (List.mem_cons_self _ _)
      · rcases ih init h'' with h3 | h3
        · exact Or.inl h3
        · exact Or.inr (List.mem_cons_of_mem _ h3)
  rcases hgen commonAbbreviations [] h with h' | h'
  · cases h'
  · exact h'

theorem processAbbrev_id {conv : Convention} {name : Str}
    (h : ∀ ab ∈ commonAbbreviations, sHas (sUpper name) ab = false) :
    processAbbreviations conv name = name := by
  have h' : ∀ ab ∈ sortedAbbrevs, sHas (sUpper name) ab = false :=
    fun ab hab => h ab (mem_sortedAbbrevs hab)
  rw [processAbbreviations]
  have hgen : ∀ (l : List Str), (∀ ab ∈ l, sHas (sUpper name) ab = false) →
      ∀ (acc : Str), l.foldl (fun processed abb =>
        if sHas (sUpper name) abb then
          match conv with
          | .pascal | .camel => adjustAbbrevCamel processed abb
          | .snake | .kebab =>
            replaceAll (replaceAll processed (sUpper abb) (sLower abb)) (sLower abb) (sLower abb)
          | .screaming => sUpper processed
          | .title => adjustAbbrevTitle processed abb
          | .lower => sLower processed
        else processed) acc = acc := by
    intro l
    induction l with
    | nil => intro _ acc; rfl
    | cons ab abs ih =>
      intro hl acc
      rw [List.foldl_cons]
      simp only [hl ab (List.mem_cons_self _ _), Bool.false_eq_true, if_false]
      exact ih (fun a ha => hl a (List.mem_cons_of_mem _ ha)) acc
  exact hgen sortedAbbrevs h' name

theorem all_weakenP {P Q : Char → Bool} (h : ∀ c, P c = true → Q c = true) :
    ∀ {s : Str}, s.all P = true → s.all Q = true := by
  intro s hs
  rw [List.all_eq_true] at *
  exact fun c hc => h c (hs c hc)

theorem all_sUpper_of {P Q : Char → Bool}
    (h : ∀ c, P c = true → Q (toUpperChar c) = true) :
    ∀ {s : Str}, s.all P = true → (sUpper s).all Q = true := by
  intro s hs
  rw [List.all_eq_true] at *
  intro c hc
  rw [sUpper, List.mem_map] at hc
  obtain ⟨d, hd, rfl⟩ := hc
  exact h d (hs d hd)

theorem all_isAlnumA_sLower {s : Str} (h : s.all isAlphaA = true) :
    (sLower s).all isAlnumA = true :=
  all_weakenP (fun _ hc => isAlnumA_of_alpha (isAlphaA_of_lower hc)) (all_isLowerA_sLower h)

theorem all_isAlnumA_pyCapitalize {p : Str} (h : p.all isAlphaA = true) :
    (pyCapitalize p).all isAlnumA = true := by
  cases p with
  | nil => rfl
  | cons c t =>
    rw [List.all_cons, Bool.and_eq_true] at h
    obtain ⟨hc, ht⟩ := h
    rw [pyCapitalize, List.all_cons]
    exact Bool.and_eq_true _ _ |>.mpr
      ⟨isAlnumA_of_alpha (isAlphaA_of_upper (isUpperA_toUpperChar_of_alpha hc)),
       all_isAlnumA_sLower ht⟩

theorem toPascalCase_eq {name : Str}
    (habbrev : ∀ p ∈ splitNameIntoParts name, sUpper p ∉ commonAbbreviations) :
    toPascalCase name = ((splitNameIntoParts name).map pyCapitalize).flatten := by
  rw [toPascalCase]
  congr 1
  exact List.map_congr_left fun p hp => by rw [if_neg (habbrev p hp)]

theorem matchPascal_toPascalCase {name : Str}
    (hne : splitNameIntoParts name ≠ [])
    (halpha : ∀ p ∈ splitNameIntoParts name, p ≠ [] ∧ p.all isAlphaA = true)
    (habbrev : ∀ p ∈ splitNameIntoParts name, sUpper p ∉ commonAbbreviations) :
    matchPascal (toPascalCase name) = true := by
  rw [toPascalCase_eq habbrev]
  obtain ⟨p, ps, hparts⟩ : ∃ p ps, splitNameIntoParts name = p :: ps := by
    cases h : splitNameIntoParts name with
    | nil => exact absurd h hne
    | cons a l => exact ⟨a, l, rfl⟩
  rw [hparts, List.map_cons, List.flatten_cons]
  obtain ⟨hp, hpa⟩ := halpha p (by rw [hparts]; exact List.mem_cons_self _ _)
  cases p with
  | nil => exact absurd rfl hp
  | cons c t =>
    rw [List.all_cons, Bool.and_eq_true] at hpa
    obtain ⟨hc, ht⟩ := hpa
    rw [pyCapitalize, List.cons_append, matchPascal]
    refine Bool.and_eq_true _ _ |>.mpr ⟨isUpperA_toUpperChar_of_alpha hc, ?_⟩
    rw [List.all_append]
    refine Bool.and_eq_true _ _ |>.mpr ⟨all_isAlnumA_sLower ht, all_flattenP ?_⟩
    intro x hx
    rw [List.mem_map] at hx
    obtain ⟨q, hq, rfl⟩ := hx
    exact all_isAlnumA_pyCapitalize
      (halpha q (by rw [hparts]; exact List.mem_cons_of_mem _ hq)).2

theorem toCamelCase_eq {name p : Str} {ps : List Str}
    (hparts : splitNameIntoParts name = p :: ps)
    (habbrev : ∀ q ∈ splitNameIntoParts name, sUpper q ∉ commonAbbreviations) :
    toCamelCase name = (sLower p :: ps.map pyCapitalize).flatten := by
  rw [toCamelCase, hparts]
  have h1 : sUpper p ∉ commonAbbreviations :=
    habbrev p (by rw [hparts]; exact List.mem_cons_self _ _)
  show ((if sUpper p ∈ commonAbbreviations then sUpper p else sLower p) ::
    ps.map fun q => if sUpper q ∈ commonAbbreviations then sUpper q else pyCapitalize q).flatten =
    (sLower p :: ps.map pyCapitalize).flatten
  rw [if_neg h1]
  congr 2
  exact List.map_congr_left fun q hq => by
    rw [if_neg (habbrev q (by rw [hparts]; exact List.mem_cons_of_mem _ hq))]

theorem matchCamel_toCamelCase {name : Str}
    (hne : splitNameIntoParts name ≠ [])
    (halpha : ∀ p ∈ splitNameIntoParts name, p ≠ [] ∧ p.all isAlphaA = true)
    (habbrev : ∀ p ∈ splitNameIntoParts name, sUpper p ∉ commonAbbreviations) :
    matchCamel (toCamelCase name) = true := by
  obtain ⟨p, ps, hparts⟩ : ∃ p ps, splitNameIntoParts name = p :: ps := by
    cases h : splitNameIntoParts name with
    | nil => exact absurd h hne
    | cons a l => exact ⟨a, l, rfl⟩
  rw [toCamelCase_eq hparts habbrev, List.flatten_cons]
  obtain ⟨hp, hpa⟩ := halpha p (by rw [hparts]; exact List.mem_cons_self _ _)
  cases p with
  | nil => exact absurd rfl hp
  | cons c t =>
    rw [List.all_cons, Bool.and_eq_true] at hpa
    obtain ⟨hc, ht⟩ := hpa
    rw [show sLower (c :: t) = toLowerChar c :: sLower t from rfl,
        List.cons_append, matchCamel]
    refine Bool.and_eq_true _ _ |>.mpr ⟨isLowerA_toLowerChar_of_alpha hc, ?_⟩
    rw [List.all_append]
    refine Bool.and_eq_true _ _ |>.mpr ⟨all_isAlnumA_sLower ht, all_flattenP ?_⟩
    intro x hx
    rw [List.mem_map] at hx
    obtain ⟨q, hq, rfl⟩ := hx
    exact all_isAlnumA_pyCapitalize
      (halpha q (by rw [hparts]; exact List.mem_cons_of_mem _ hq)).2

theorem joinSLower_shape {name p : Str} {ps : List Str} (sep : Str)
    (P : Char → Bool)
    (hparts : splitNameIntoParts name = p :: ps)
    (halpha : ∀ q ∈ splitNameIntoParts name, q ≠ [] ∧ q.all isAlphaA = true)
    (hsep : sep.all P = true)
    (hlow : ∀ c, isLowerA c = true → P c = true) :
    ∃ c r, joinSep sep ((p :: ps).map sLower) = c :: r ∧
      isLowerA c = true ∧ r.all P = true := by
  obtain ⟨hp, hpa⟩ := halpha p (by rw [hparts]; exact List.mem_cons_self _ _)
  cases p with
  | nil => exact absurd rfl hp
  | cons c t =>
    rw [List.all_cons, Bool.and_eq_true] at hpa
    obtain ⟨hc, ht⟩ := hpa
    refine ⟨toLowerChar c, sLower t ++ sepJoined sep (ps.map sLower), ?_, ?_, ?_⟩
    · rw [List.map_cons, joinSep_cons]
      rfl
    · exact isLowerA_toLowerChar_of_alpha hc
    · rw [List.all_append]
      refine Bool.and_eq_true _ _ |>.mpr
        ⟨all_weakenP hlow (all_isLowerA_sLower ht), all_sepJoined hsep ?_⟩
      intro x hx
      rw [List.mem_map] at hx
      obtain ⟨q, hq, rfl⟩ := hx
      exact all_weakenP hlow (all_isLowerA_sLower
        (halpha q (by rw [hparts]; exact List.mem_cons_of_mem _ hq)).2)

theorem matchSnake_toSnakeCase {name : Str}
    (hne : splitNameIntoParts name ≠ [])
    (halpha : ∀ p ∈ splitNameIntoParts name, p ≠ [] ∧ p.all isAlphaA = true) :
    matchSnake (toSnakeCase name) = true := by
  obtain ⟨p, ps, hparts⟩ : ∃ p ps, splitNameIntoParts name = p :: ps := by
    cases h : splitNameIntoParts name with
    | nil => exact absurd h hne
    | cons a l => exact ⟨a, l, rfl⟩
  rw [toSnakeCase, hparts]
  obtain ⟨c, r, heq, hc, hr⟩ := joinSLower_shape
    (['_']) (fun d => isLowerA d || d.isDigit || d = '_') hparts halpha (by decide)
    (fun d hd => by simp [hd])
  rw [heq, matchSnake]
  exact Bool.and_eq_true _ _ |>.mpr ⟨hc, hr⟩

theorem matchKebab_toKebabCase {name : Str}
    (hne : splitNameIntoParts name ≠ [])
    (halpha : ∀ p ∈ splitNameIntoParts name, p ≠ [] ∧ p.all isAlphaA = true) :
    matchKebab (toKebabCase name) = true := by
  obtain ⟨p, ps, hparts⟩ : ∃ p ps, splitNameIntoParts name = p :: ps := by
    cases h : splitNameIntoParts name with
    | nil => exact absurd h hne
    | cons a l => exact ⟨a, l, rfl⟩
  rw [toKebabCase, hparts]
  obtain ⟨c, r, heq, hc, hr⟩ := joinSLower_shape
    (['-']) (fun d => isLowerA d || d.isDigit || d = '-') hparts halpha (by decide)
    (fun d hd => by simp [hd])
  rw [heq, matchKebab]
  exact Bool.and_eq_true _ _ |>.mpr ⟨hc, hr⟩

theorem matchLowerConv_toLowerCaseConv {name : Str}
    (hne : splitNameIntoParts name ≠ [])
    (halpha : ∀ p ∈ splitNameIntoParts name, p ≠ [] ∧ p.all isAlphaA = true) :
    matchLowerConv (toLowerCaseConv name) = true := by
  obtain ⟨p, ps, hparts⟩ : ∃ p ps, splitNameIntoParts name = p :: ps := by
    cases h : splitNameIntoParts name with
    | nil => exact absurd h hne
    | cons a l => exact ⟨a, l, rfl⟩
  rw [toLowerCaseConv, hparts]
  obtain ⟨c, r, heq, hc, hr⟩ := joinSLower_shape
    ([' ']) (fun d => isLowerA d || isSpaceChar d) hparts halpha (by decide)
    (fun d hd => by simp [hd])
  rw [heq, matchLowerConv]
  exact Bool.and_eq_true _ _ |>.mpr ⟨hc, hr⟩

theorem matchScreaming_sUpper_toSnakeCase {name : Str}
    (hne : splitNameIntoParts name ≠ [])
    (halpha : ∀ p ∈ splitNameIntoParts name, p ≠ [] ∧ p.all isAlphaA = true) :
    matchScreaming (sUpper (toSnakeCase name)) = true := by
  obtain ⟨p, ps, hparts⟩ : ∃ p ps, splitNameIntoParts name = p :: ps := by
    cases h : splitNameIntoParts name with
    | nil => exact absurd h hne
    | cons a l => exact ⟨a, l, rfl⟩
  rw [toSnakeCase, hparts]
  obtain ⟨c, r, heq, hc, hr⟩ := joinSLower_shape
    (['_']) (fun d => isLowerA d || d = '_') hparts halpha (by decide)
    (fun d hd => by simp [hd])
  rw [heq]
  rw [show sUpper (c :: r) = toUpperChar c :: sUpper r from rfl, matchScreaming]
  refine Bool.and_eq_true _ _ |>.mpr ⟨isUpperA_toUpperChar_of_lower hc, ?_⟩
  refine all_sUpper_of ?_ hr
  intro d hd
  rcases Bool.or_eq_true _ _ |>.mp hd with h1 | h2
  · simp [isUpperA_toUpperChar_of_lower h1]
  · have hd2 : d = '_' := by simpa using h2
    subst hd2
    decide

theorem titleTail_lower_append {v : Str} (hv : titleTail v = true) :
    ∀ {u : Str}, u.all isLowerA = true → titleTail (u ++ v) = true := by
  intro u
  induction u with
  | nil => intro _; exact hv
  | cons c u2 ih =>
    intro hu
    rw [List.all_cons, Bool.and_eq_true] at hu
    obtain ⟨hc, hu2⟩ := hu
    have htail := ih hu2
    cases hw : u2 ++ v with
    | nil =>
      have h1 : titleTail ((c :: u2) ++ v) = titleTail [c] := by
        rw [List.cons_append, hw]
      rw [h1]
      show isLowerA c = true
      exact hc
    | cons e w =>
      have h1 : titleTail ((c :: u2) ++ v) = titleTail (c :: e :: w) := by
        rw [List.cons_append, hw]
      have h2 : titleTail (c :: e :: w) =
          (if isLowerA c then titleTail (e :: w) else
            if isSpaceChar c then isUpperA e && titleTail w else false) := rfl
      rw [h1, h2, if_pos hc, ← hw]
      exact htail

theorem titleTail_sepJoined :
    ∀ {ws : List Str}, (∀ w ∈ ws, w ≠ [] ∧ w.all isAlphaA = true) →
      titleTail (sepJoined [' '] (ws.map pyCapitalize)) = true := by
  intro ws
  induction ws with
  | nil => intro _; rfl
  | cons w ws2 ih =>
    intro h
    obtain ⟨hw, hwa⟩ := h w (List.mem_cons_self _ _)
    cases w with
    | nil => exact absurd rfl hw
    | cons c t =>
      rw [List.all_cons, Bool.and_eq_true] at hwa
      obtain ⟨hc, ht⟩ := hwa
      show titleTail (' ' :: toUpperChar c ::
        (sLower t ++ sepJoined [' '] (ws2.map pyCapitalize))) = true
      have h2 : titleTail (' ' :: toUpperChar c ::
          (sLower t ++ sepJoined [' '] (ws2.map pyCapitalize))) =
          (if isLowerA ' ' then
            titleTail (toUpperChar c :: (sLower t ++ sepJoined [' '] (ws2.map pyCapitalize)))
          else if isSpaceChar ' ' then
            isUpperA (toUpperChar c) &&
              titleTail (sLower t ++ sepJoined [' '] (ws2.map pyCapitalize))
          else false) := rfl
      rw [h2, if_neg (by decide), if_pos (by decide)]
      refine Bool.and_eq_true _ _ |>.mpr ⟨isUpperA_toUpperChar_of_alpha hc, ?_⟩
      exact titleTail_lower_append
        (ih fun y hy => h y (List.mem_cons_of_mem _ hy)) (all_isLowerA_sLower ht)

theorem toTitleCase_eq {name : Str}
    (habbrev : ∀ p ∈ splitNameIntoParts name, sUpper p ∉ commonAbbreviations) :
    toTitleCase name = joinSep [' '] ((splitNameIntoParts name).map pyCapitalize) := by
  rw [toTitleCase]
  congr 1
  exact List.map_congr_left fun p hp => by rw [if_neg (habbrev p hp)]

theorem matchTitle_toTitleCase {name : Str}
    (hne : splitNameIntoParts name ≠ [])
    (halpha : ∀ p ∈ splitNameIntoParts name, p ≠ [] ∧ p.all isAlphaA = true)
    (habbrev : ∀ p ∈ splitNameIntoParts name, sUpper p ∉ commonAbbreviations) :
    matchTitle (toTitleCase name) = true := by
  rw [toTitleCase_eq habbrev]
  obtain ⟨p, ps, hparts⟩ : ∃ p ps, splitNameIntoParts name = p :: ps := by
    cases h : splitNameIntoParts name with
    | nil => exact absurd h hne
    | cons a l => exact ⟨a, l, rfl⟩
  rw [hparts, List.map_cons, joinSep_cons]
  obtain ⟨hp, hpa⟩ := halpha p (by rw [hparts]; exact List.mem_cons_self _ _)
  cases p with
  | nil => exact absurd rfl hp
  | cons c t =>
    rw [List.all_cons, Bool.and_eq_true] at hpa
    obtain ⟨hc, ht⟩ := hpa
    rw [pyCapitalize, List.cons_append, matchTitle]
    refine Bool.and_eq_true _ _ |>.mpr ⟨isUpperA_toUpperChar_of_alpha hc, ?_⟩
    exact titleTail_lower_append
      (titleTail_sepJoined fun y hy =>
        halpha y (by rw [hparts]; exact List.mem_cons_of_mem _ hy))
      (all_isLowerA_sLower ht)

theorem matchConv_ne_nil {conv : Convention} {s : Str}
    (h : matchConv conv s = true) : s ≠ [] := by
  intro hs
  subst hs
  cases conv <;> simp [matchConv, matchPascal, matchCamel, matchSnake, matchKebab,
    matchScreaming, matchTitle, matchLowerConv] at h

/-- **C6, counterexample.**  The round trip fails in general: for Title Case,
the suggestion for `button1` is `Button1` (the digit survives `capitalize`),
yet Title Case's regex `^[A-Z][a-z]*(\s[A-Z][a-z]*)*$` rejects digits, so the
suggestion re-validates with a violation; for camelCase, the suggestion for
`api handler` is `APIHandler` (the abbreviation is kept uppercase even in
first position), yet the camelCase regex requires a lowercase first letter,
so that suggestion re-validates with a violation too. -/
theorem C6_counterexample :
    suggestName .title (cs "button1") = cs "Button1" ∧
    validateName .title (cs "property") (cs "Button1") ≠ [] ∧
    suggestName .camel (cs "api handler") = cs "APIHandler" ∧
    validateName .camel (cs "property") (cs "APIHandler") ≠ [] :=
  ⟨by decide, by decide, by decide, by decide⟩

/-- **C6** (amended).  The naming round trip — re-validating a convention's
own suggestion yields zero violations — holds for every convention whenever
the name splits into nonempty purely-alphabetic parts, no part equals a known
abbreviation (uppercased), and the finished suggestion contains no
abbreviation as an uppercase substring (so `_process_abbreviations` leaves it
unchanged).  Without those provisos the claim is false (`C6_counterexample`):
digits pass through `capitalize` but are rejected by the Title Case regex,
and an abbreviation in first position stays uppercase in a camelCase
suggestion whose regex demands a lowercase start. -/
theorem C6_suggestion_revalidates (conv : Convention) (name ntStr : Str)
    (hne : splitNameIntoParts name ≠ [])
    (halpha : ∀ p ∈ splitNameIntoParts name, p ≠ [] ∧ p.all isAlphaA = true)
    (habbrev : ∀ p ∈ splitNameIntoParts name, sUpper p ∉ commonAbbreviations)
    (hclean : ∀ ab ∈ commonAbbreviations, sHas (sUpper (suggestName conv name)) ab = false) :
    validateName conv ntStr (suggestName conv name) = [] := by
  have hmatch : matchConv conv (suggestName conv name) = true := by
    cases conv with
    | pascal => exact matchPascal_toPascalCase hne halpha habbrev
    | camel => exact matchCamel_toCamelCase hne halpha habbrev
    | snake => exact matchSnake_toSnakeCase hne halpha
    | kebab => exact matchKebab_toKebabCase hne halpha
    | screaming => exact matchScreaming_sUpper_toSnakeCase hne halpha
    | title => exact matchTitle_toTitleCase hne halpha habbrev
    | lower => exact matchLowerConv_toLowerCaseConv hne halpha
  have hproc : processAbbreviations conv (suggestName conv name) = suggestName conv name :=
    @processAbbrev_id conv (suggestName conv name) hclean
  have hnn : suggestName conv name ≠ [] := matchConv_ne_nil hmatch
  rw [validateName]
  by_cases hr : suggestName conv name = cs "root"
  · rw [if_pos hr]
  · rw [if_neg hr, if_neg (by
      have := List.length_pos.mpr hnn
      omega)]
    simp only [hproc, hmatch, if_true]

/-- The round trip at a concrete instance: the PascalCase suggestion for
`my_button` (namely `MyButton`) re-validates cleanly. -/
theorem C6_suggestion_revalidates_witness :
    validateName .pascal (cs "component") (suggestName .pascal (cs "my_button")) = [] :=
  C6_suggestion_revalidates .pascal (cs "my_button") (cs "component")
    (by decide) (by decide) (by decide) (by decide)

/-! ### The unused-custom-properties rule (`rules/properties/unused_custom_properties.py`) -/

/-- `[a-zA-Z_]`, the first character of a Python identifier. -/
def isIdentStart (c : Char) : Bool := isAlphaA c || c = '_'

/-- `[a-zA-Z0-9_]`, a later character of a Python identifier. -/
def isIdentChar (c : Char) : Bool := isAlnumA c || c = '_'

/-- `([a-zA-Z_][a-zA-Z0-9_]*)` matched (greedily) at the start of `s`. -/
def identAfter (s : Str) : Option Str :=
  match s with
  | [] => none
  | c :: rest => if isIdentStart c then some (c :: rest.takeWhile isIdentChar) else none

/-- The whole of `X` is one identifier. -/
def identOk (X : Str) : Bool :=
  match X with
  | [] => false
  | c :: rest => isIdentStart c && rest.all isIdentChar

/-- `re.search(lit_re + r'([a-zA-Z_][a-zA-Z0-9_]*)', s)` for a literal `lit`:
scan positions left to right; at a position the literal must match and an
identifier must follow, otherwise the scan moves on one character.  Fueled by
`s.length` (each step consumes one character). -/
def findLitIdentAux (lit : Str) : Nat → Str → Option Str
  | 0, _ => none
  | _ + 1, [] => none
  | fuel + 1, c :: rest =>
    match (if sStarts (c :: rest) lit then identAfter ((c :: rest).drop lit.length)
           else none) with
    | some x => some x
    | none => findLitIdentAux lit fuel rest

/-- `re.search` wrapper for `findLitIdentAux`. -/
def findLitIdent (lit s : Str) : Option Str := findLitIdentAux lit s.length s

/-- `re.search(r'([^.]+)\.custom\.([a-zA-Z_][a-zA-Z0-9_]*)', s)`.  At a scan
position starting on a non-dot character the greedy `[^.]+` must run exactly
to the next dot (stopping earlier puts a non-dot where `\.` requires a dot),
so the only candidate split takes the whole dot-free run; on failure the scan
moves on one character, which reaches every later run.  Fueled by
`s.length`. -/
def findCompCustomAux : Nat → Str → Option (Str × Str)
  | 0, _ => none
  | _ + 1, [] => none
  | fuel + 1, c :: rest =>
    if c ≠ '.' then
      match (if sStarts ((c :: rest).dropWhile (fun d => d ≠ '.')) (cs ".custom.")
             then identAfter (((c :: rest).dropWhile (fun d => d ≠ '.')).drop 8)
             else none) with
      | some x => some ((c :: rest).takeWhile (fun d => d ≠ '.'), x)
      | none => findCompCustomAux fuel rest
    else findCompCustomAux fuel rest

/-- `re.search` wrapper for `findCompCustomAux`. -/
def findCompCustom (s : Str) : Option (Str × Str) := findCompCustomAux s.length s

/-- Python `set.add`: only membership in the result matters below. -/
def setAdd (s : List Str) (x : Str) : List Str := if x ∈ s then s else s ++ [x]

/-- `visit_property`: how one Property node's path updates
`defined_properties` (dict assignment is `odInsert`).  View-level custom
properties and parameters are keyed `view.custom.name` / `view.params.name`;
a component-scoped property whose path has a dot-free tail after `.custom.`
is keyed by the component's last path segment before the *first* `.custom.`
plus the property name. -/
def visitPropertyUpd (dp : List (Str × Str)) (path : Str) : List (Str × Str) :=
  if sStarts path (cs "custom.") ∧ ¬ sHas (path.drop 7) (cs ".") then
    odInsert dp (cs "view.custom." ++ path.drop 7) path
  else if sStarts path (cs "params.") ∧ ¬ sHas (path.drop 7) (cs ".") then
    odInsert dp (cs "view.params." ++ path.drop 7) path
  else if sHas path (cs ".custom.") ∧ ¬ sStarts path (cs "propConfig.") then
    match dotFreeTailAfter path (cs ".custom.") with
    | some propName =>
      odInsert dp
        (lastSeg (beforeFirst path (cs ".custom.")) ++ cs ".custom." ++ propName) path
    | none => dp
  else dp

/-- The `defined_properties` dict after visiting the given Property-node
paths in order. -/
def buildDefined (paths : List Str) : List (Str × Str) :=
  paths.foldl visitPropertyUpd []

/-- The search patterns one defined key contributes in
`_search_flattened_json_for_references` (`parts[0]` / `parts[1]` of the
`.custom.` split for the component branch). -/
def patternsFor (k : Str) : List Str :=
  if sStarts k (cs "view.custom.") then
    [cs "view.custom." ++ k.drop 12, cs "self.view.custom." ++ k.drop 12,
     '\x7b' :: (k.drop 12 ++ ['\x7d'])]
  else if sStarts k (cs "view.params.") then
    [cs "view.params." ++ k.drop 12, cs "self.view.params." ++ k.drop 12,
     '\x7b' :: (k.drop 12 ++ ['\x7d'])]
  else if sHas k (cs ".custom.") then
    [(pySplit k (cs ".custom.")).headD [] ++ cs ".custom." ++
       (pySplit k (cs ".custom.")).getD 1 [],
     cs "this.custom." ++ (pySplit k (cs ".custom.")).getD 1 [],
     cs "self.custom." ++ (pySplit k (cs ".custom.")).getD 1 []]
  else []

/-- All search patterns, in defined-key order. -/
def searchPatterns (dp : List (Str × Str)) : List Str :=
  (dp.map fun kv => patternsFor kv.1).flatten

/-- `_mark_property_used_from_pattern`: the `used_properties` entry (if any)
a found pattern adds. -/
def markTarget (pat : Str) : Option Str :=
  if sHas pat (cs "view.custom.") then
    match findLitIdent (cs "view.custom.") pat with
    | some name => some (cs "view.custom." ++ name)
    | none => none
  else if sHas pat (cs "view.params.") then
    match findLitIdent (cs "view.params.") pat with
    | some name => some (cs "view.params." ++ name)
    | none => none
  else if sHas pat (cs ".custom.") then
    if sStarts pat (cs "this.custom.") || sStarts pat (cs "self.custom.") then
      match findLitIdent (cs ".custom.") pat with
      | some name => some (cs "*.custom." ++ name)
      | none => none
    else
      match findCompCustom pat with
      | some cn => some (cn.1 ++ cs ".custom." ++ cn.2)
      | none => none
  else none

/-- `_mark_property_used_from_pattern` as a `used_properties` update. -/
def markPatternUpd (used : List Str) (pat : Str) : List Str :=
  match markTarget pat with
  | some y => setAdd used y
  | none => used

/-- `_search_flattened_json_for_references`: for every string value of the
flattened view and every search pattern occurring in it, mark the pattern's
property used.  Returns `used` unchanged when either input is empty. -/
def searchFlattened (dp : List (Str × Str)) (fm : List (Str × Json)) (used : List Str) :
    List Str :=
  if fm = [] ∨ dp = [] then used
  else
    fm.foldl (fun u kv =>
      match kv.2 with
      | Json.str s =>
        (searchPatterns dp).foldl (fun u2 p => if sHas s p then markPatternUpd u2 p else u2) u
      | _ => u) used

/-- `finalize`'s per-key unused check (`true` = reported): not directly used,
and — for a component-scoped key not starting with `view.` — not wildcard-used
either, where the wildcard name is the part after the *last* `.custom.`. -/
def isReportedUnused (used : List Str) (k : Str) : Bool :=
  if k ∈ used then false
  else if sHas k (cs ".custom.") ∧ ¬ sStarts k (cs "view.") then
    if cs "*.custom." ++ (pySplit k (cs ".custom.")).getLastD [] ∈ used then false else true
  else true

/-- `finalize`: the `(prop_path, definition_location)` pairs reported as
unused, in definition order. -/
def finalizeUnused (dp : List (Str × Str)) (used : List Str) : List (Str × Str) :=
  dp.filter fun kv => isReportedUnused used kv.1

/-- The error strings `finalize` appends for the unused pairs. -/
def unusedErrors (dp : List (Str × Str)) (used : List Str) : List Str :=
  (finalizeUnused dp used).map fun kv =>
    kv.2 ++ cs ": " ++
      (if sHas kv.1 (cs ".params.") then cs "view parameter" else cs "custom property") ++
      cs " '" ++ lastSeg kv.1 ++ cs "' is defined but never referenced"

/-! ### Lemmas for the unused-custom-properties rule -/

theorem setAdd_mem_self (s : List Str) (x : Str) : x ∈ setAdd s x := by
  rw [setAdd]
  by_cases h : x ∈ s
  · rw [if_pos h]; exact h
  · rw [if_neg h]; exact List.mem_append_right _ (List.mem_singleton.mpr rfl)

theorem setAdd_mem_of {s : List Str} {y : Str} (x : Str) (h : y ∈ s) : y ∈ setAdd s x := by
  rw [setAdd]
  by_cases hx : x ∈ s
  · rw [if_pos hx]; exact h
  · rw [if_neg hx]; exact List.mem_append_left _ h

theorem markPatternUpd_mem {u : List Str} {y : Str} (p : Str) (h : y ∈ u) :
    y ∈ markPatternUpd u p := by
  rcases hmt : markTarget p with _ | z
  · simp only [markPatternUpd, hmt]; exact h
  · simp only [markPatternUpd, hmt]; exact setAdd_mem_of z h

theorem innerFold_mem {s y : Str} :
    ∀ {pats : List Str} {u : List Str}, y ∈ u →
      y ∈ pats.foldl (fun u2 p => if sHas s p then markPatternUpd u2 p else u2) u := by
  intro pats
  induction pats with
  | nil => intro u h; exact h
  | cons p ps ih =>
    intro u h
    rw [List.foldl_cons]
    refine ih ?_
    by_cases hp : sHas s p = true
    · rw [if_pos hp]; exact markPatternUpd_mem p h
    · rw [if_neg hp]; exact h

theorem innerFold_adds {s pat y : Str} (hs : sHas s pat = true)
    (ht : markTarget pat = some y) :
    ∀ {pats : List Str} {u : List Str}, pat ∈ pats →
      y ∈ pats.foldl (fun u2 p => if sHas s p then markPatternUpd u2 p else u2) u := by
  intro pats
  induction pats with
  | nil => intro u h; cases h
  | cons p ps ih =>
    intro u hmem
    rw [List.foldl_cons]
    rcases List.mem_cons.mp hmem with rfl | hp
    · refine innerFold_mem ?_
      rw [if_pos hs]
      simp only [markPatternUpd, ht]
      exact setAdd_mem_self _ _
    · exact ih hp

theorem outerFold_mem {dp : List (Str × Str)} {y : Str} :
    ∀ {fm : List (Str × Json)} {u : List Str}, y ∈ u →
      y ∈ fm.foldl (fun u kv =>
        match kv.2 with
        | Json.str s =>
          (searchPatterns dp).foldl
            (fun u2 p => if sHas s p then markPatternUpd u2 p else u2) u
        | _ => u) u := by
  intro fm
  induction fm with
  | nil => intro u h; exact h
  | cons kv rest ih =>
    intro u h
    rw [List.foldl_cons]
    refine ih ?_
    rcases kv with ⟨q, j⟩
    cases j with
    | null => exact h
    | bool b => exact h
    | num n => exact h
    | str s => exact innerFold_mem h
    | arr l => exact h
    | obj l => exact h

theorem outerFold_adds {dp : List (Str × Str)} {q s pat y : Str}
    (hpat : pat ∈ searchPatterns dp) (hs : sHas s pat = true)
    (ht : markTarget pat = some y) :
    ∀ {fm : List (Str × Json)} {u : List Str}, (q, Json.str s) ∈ fm →
      y ∈ fm.foldl (fun u kv =>
        match kv.2 with
        | Json.str s =>
          (searchPatterns dp).foldl
            (fun u2 p => if sHas s p then markPatternUpd u2 p else u2) u
        | _ => u) u := by
  intro fm
  induction fm with
  | nil => intro u h; cases h
  | cons kv rest ih =>
    intro u hmem
    rw [List.foldl_cons]
    rcases List.mem_cons.mp hmem with heq | hmem2
    · rw [← heq]
      exact outerFold_mem (innerFold_adds hs ht hpat)
    · exact ih hmem2

theorem searchFlattened_adds {dp : List (Str × Str)} {fm : List (Str × Json)}
    {u : List Str} {q s pat y : Str}
    (hmem : (q, Json.str s) ∈ fm) (hdp : dp ≠ [])
    (hpat : pat ∈ searchPatterns dp) (hs : sHas s pat = true)
    (ht : markTarget pat = some y) :
    y ∈ searchFlattened dp fm u := by
  rw [searchFlattened, if_neg]
  · exact outerFold_adds hpat hs ht hmem
  · push_neg
    exact ⟨List.ne_nil_of_mem hmem, hdp⟩

theorem mem_of_isPref {p s : Str} {x : Char} (h : isPref p s) (hx : x ∈ p) : x ∈ s := by
  obtain ⟨t, rfl⟩ := h
  exact List.mem_append_left t hx

theorem sStarts_cons_false {c d : Char} {r p : Str} (h : c ≠ d) :
    sStarts (c :: r) (d :: p) = false := by
  simp [sStarts, h]

theorem sStarts_app_self (p t : Str) : sStarts (p ++ t) p = true :=
  sStarts_iff.mpr (isPref_app p t)

theorem sHas_of_sStarts {s sub : Str} (h : sStarts s sub = true) : sHas s sub = true := by
  rw [sHas.eq_def, if_pos h]

theorem sHas_app_right (a : Str) {b sub : Str} (h : sStarts b sub = true) :
    sHas (a ++ b) sub = true := by
  induction a with
  | nil => exact sHas_of_sStarts h
  | cons c a2 ih =>
    by_cases hs : sStarts ((c :: a2) ++ b) sub = true
    · exact sHas_of_sStarts hs
    · rw [List.cons_append] at hs ⊢
      rw [sHas, if_neg hs]
      exact ih

theorem sHas_false_of_not_mem {sub : Str} {ch : Char} (hch : ch ∈ sub) :
    ∀ {s : Str}, ch ∉ s → sHas s sub = false := by
  cases sub with
  | nil => cases hch
  | cons d p =>
    intro s
    induction s with
    | nil => intro _; rfl
    | cons c rest ih =>
      intro hs
      have hne : ¬ sStarts (c :: rest) (d :: p) = true := by
        intro h
        exact hs (mem_of_isPref (sStarts_iff.mp h) hch)
      rw [sHas.eq_def, if_neg hne]
      exact ih (fun hm => hs (List.mem_cons_of_mem _ hm))

theorem sHas_app_false {a X : Str} {d : Char} {sub2 : Str}
    (ha : ∀ ch ∈ a, ch ≠ d) (hdot : '.' ∈ d :: sub2) (hX : '.' ∉ X) :
    sHas (a ++ X) (d :: sub2) = false := by
  induction a with
  | nil => exact sHas_false_of_not_mem hdot hX
  | cons e a2 ih =>
    rw [List.cons_append, sHas.eq_def,
      if_neg (by simp [sStarts_cons_false (ha e (List.mem_cons_self _ _))])]
    exact ih (fun ch hch => ha ch (List.mem_cons_of_mem _ hch))

theorem dotSplitUnique {u v : Str} :
    ∀ {a b : Str}, '.' ∉ a → '.' ∉ b → a ++ '.' :: u = b ++ '.' :: v →
      a = b ∧ u = v := by
  intro a
  induction a with
  | nil =>
    intro b ha hb heq
    cases b with
    | nil =>
      rw [List.nil_append, List.nil_append] at heq
      injection heq with _ h2
      exact ⟨rfl, h2⟩
    | cons f b2 =>
      rw [List.nil_append, List.cons_append] at heq
      injection heq with h1 h2
      subst h1
      exact absurd (List.mem_cons_self _ _) hb
  | cons e a2 ih =>
    intro b ha hb heq
    cases b with
    | nil =>
      rw [List.nil_append, List.cons_append] at heq
      injection heq with h1 h2
      subst h1
      exact absurd (List.mem_cons_self _ _) ha
    | cons f b2 =>
      rw [List.cons_append, List.cons_append] at heq
      injection heq with h1 h2
      obtain ⟨hab, huv⟩ := ih (fun hm => ha (List.mem_cons_of_mem _ hm))
        (fun hm => hb (List.mem_cons_of_mem _ hm)) h2
      refine ⟨?_, huv⟩
      rw [h1, hab]

theorem sStarts_dotname_false {c Y w r : Str}
    (hc : '.' ∉ c) (hw : '.' ∉ w) (hne : c ≠ w) :
    sStarts (c ++ '.' :: Y) (w ++ '.' :: r) = false := by
  by_contra h
  rw [Bool.not_eq_false] at h
  obtain ⟨t, ht⟩ := sStarts_iff.mp h
  rw [List.append_assoc, List.cons_append] at ht
  exact hne ((dotSplitUnique hc hw ht.symm).1)

theorem k_shape (c X : Str) :
    c ++ cs ".custom." ++ X = c ++ '.' :: (cs "custom." ++ X) := by
  rw [List.append_assoc]
  rfl

theorem sStarts_k_view_custom {c X : Str} (hc : '.' ∉ c) (hcv : c ≠ cs "view") :
    sStarts (c ++ cs ".custom." ++ X) (cs "view.custom.") = false := by
  rw [k_shape]
  have hv : cs "view.custom." = cs "view" ++ '.' :: cs "custom." := rfl
  rw [hv]
  exact sStarts_dotname_false hc (by decide) hcv

theorem sStarts_k_view_params {c X : Str} (hc : '.' ∉ c) (hcv : c ≠ cs "view") :
    sStarts (c ++ cs ".custom." ++ X) (cs "view.params.") = false := by
  rw [k_shape]
  have hv : cs "view.params." = cs "view" ++ '.' :: cs "params." := rfl
  rw [hv]
  exact sStarts_dotname_false hc (by decide) hcv

theorem sStarts_k_viewdot {c X : Str} (hc : '.' ∉ c) (hcv : c ≠ cs "view") :
    sStarts (c ++ cs ".custom." ++ X) (cs "view.") = false := by
  rw [k_shape]
  have hv : cs "view." = cs "view" ++ '.' :: ([] : Str) := rfl
  rw [hv]
  exact sStarts_dotname_false hc (by decide) hcv

theorem firstOcc_dotless_app {a s p : Str} (ha : '.' ∉ a)
    (hs : sStarts s ('.' :: p) = true) :
    firstOcc (a ++ s) ('.' :: p) = some a.length := by
  induction a with
  | nil =>
    cases s with
    | nil => simp [sStarts] at hs
    | cons c rest =>
      rw [List.nil_append, firstOcc, if_pos hs]
      rfl
  | cons e a2 ih =>
    have he : e ≠ '.' := fun hh => ha (by rw [hh]; exact List.mem_cons_self _ _)
    rw [List.cons_append, firstOcc, if_neg (by simp [sStarts_cons_false he]),
        ih (fun hm => ha (List.mem_cons_of_mem _ hm))]
    rfl

theorem firstOcc_none_dotless {X p : Str} (hX : '.' ∉ X) :
    firstOcc X ('.' :: p) = none := by
  induction X with
  | nil => rfl
  | cons c rest ih =>
    have he : c ≠ '.' := fun hh => hX (by rw [hh]; exact List.mem_cons_self _ _)
    rw [firstOcc, if_neg (by simp [sStarts_cons_false he]),
        ih (fun hm => hX (List.mem_cons_of_mem _ hm))]
    rfl

theorem pySplitAux_no_sep {s sep : Str} (h : firstOcc s sep = none) :
    ∀ fuel, pySplitAux sep fuel s = [s] := by
  intro fuel
  cases fuel with
  | zero => rfl
  | succ f => rw [pySplitAux, h]

theorem pySplit_comp {c X : Str} (hc : '.' ∉ c) (hX : '.' ∉ X) :
    pySplit (c ++ cs ".custom." ++ X) (cs ".custom.") = [c, X] := by
  rw [List.append_assoc]
  have hfo : firstOcc (c ++ (cs ".custom." ++ X)) (cs ".custom.") = some c.length :=
    firstOcc_dotless_app hc (sStarts_app_self _ _)
  show pySplitAux (cs ".custom.") (c ++ (cs ".custom." ++ X)).length
    (c ++ (cs ".custom." ++ X)) = [c, X]
  obtain ⟨f, hf⟩ : ∃ f, (c ++ (cs ".custom." ++ X)).length = f + 1 := by
    refine ⟨(c ++ (cs ".custom." ++ X)).length - 1, ?_⟩
    have h8 : (cs ".custom.").length = 8 := rfl
    simp [List.length_append, h8]
    omega
  rw [hf, pySplitAux]
  simp only [hfo]
  have ht : (c ++ (cs ".custom." ++ X)).take c.length = c := by
    rw [List.take_left]
  have hd : (c ++ (cs ".custom." ++ X)).drop (c.length + (cs ".custom.").length) = X := by
    rw [← List.append_assoc, ← List.length_append]
    exact List.drop_left _ _
  have hno : firstOcc X (cs ".custom.") = none := firstOcc_none_dotless hX
  rw [ht, hd, pySplitAux_no_sep hno f]

theorem patternsFor_comp {c X : Str} (hc : '.' ∉ c) (hcv : c ≠ cs "view")
    (hX : '.' ∉ X) :
    patternsFor (c ++ cs ".custom." ++ X) =
      [c ++ cs ".custom." ++ X, cs "this.custom." ++ X, cs "self.custom." ++ X] := by
  have hhas : sHas (c ++ cs ".custom." ++ X) (cs ".custom.") = true := by
    rw [List.append_assoc]
    exact sHas_app_right c (sStarts_app_self _ _)
  rw [patternsFor, if_neg (by rw [sStarts_k_view_custom hc hcv]; simp),
      if_neg (by rw [sStarts_k_view_params hc hcv]; simp), if_pos hhas,
      pySplit_comp hc hX]
  rfl

theorem findLitIdentAux_irrel {lit : Str} :
    ∀ {s : Str} {f1 f2 : Nat}, s.length ≤ f1 → s.length ≤ f2 →
      findLitIdentAux lit f1 s = findLitIdentAux lit f2 s := by
  intro s
  induction s with
  | nil =>
    intro f1 f2 _ _
    cases f1 <;> cases f2 <;> rfl
  | cons c rest ih =>
    intro f1 f2 h1 h2
    cases f1 with
    | zero => simp at h1
    | succ g1 =>
      cases f2 with
      | zero => simp at h2
      | succ g2 =>
        rw [findLitIdentAux, findLitIdentAux]
        cases hm : (if sStarts (c :: rest) lit then
            identAfter ((c :: rest).drop lit.length) else none) with
        | some x => rfl
        | none =>
          exact ih (by simp only [List.length_cons] at h1; omega)
            (by simp only [List.length_cons] at h2; omega)

theorem findLitIdent_cons_skip {lit : Str} {d : Char} {p : Str} (hl : lit = d :: p)
    {c : Char} {rest : Str} (hc : c ≠ d) :
    findLitIdent lit (c :: rest) = findLitIdent lit rest := by
  rw [findLitIdent, findLitIdent]
  show findLitIdentAux lit (rest.length + 1) (c :: rest) = _
  rw [findLitIdentAux]
  have hm : (if sStarts (c :: rest) lit then
      identAfter ((c :: rest).drop lit.length) else none) = none := by
    rw [hl, if_neg (by simp [sStarts_cons_false hc])]
  rw [hm]

theorem findLitIdent_skip {lit : Str} {d : Char} {p : Str} (hl : lit = d :: p) :
    ∀ {a : Str}, (∀ ch ∈ a, ch ≠ d) → ∀ (s : Str),
      findLitIdent lit (a ++ s) = findLitIdent lit s := by
  intro a
  induction a with
  | nil => intro _ s; rfl
  | cons e a2 ih =>
    intro ha s
    rw [List.cons_append,
        findLitIdent_cons_skip hl (ha e (List.mem_cons_self _ _)),
        ih (fun ch hch => ha ch (List.mem_cons_of_mem _ hch)) s]

theorem takeWhile_eq_of_all {P : Char → Bool} :
    ∀ {l : Str}, l.all P = true → l.takeWhile P = l := by
  intro l
  induction l with
  | nil => intro _; rfl
  | cons c rest ih =>
    intro h
    rw [List.all_cons, Bool.and_eq_true] at h
    rw [List.takeWhile_cons, if_pos h.1, ih h.2]

theorem identAfter_of_identOk {X : Str} (h : identOk X = true) :
    identAfter X = some X := by
  cases X with
  | nil => simp [identOk] at h
  | cons c rest =>
    rw [identOk, Bool.and_eq_true] at h
    rw [identAfter, if_pos h.1, takeWhile_eq_of_all h.2]

theorem findLitIdent_at {d : Char} {p X : Str} (hid : identAfter X = some X) :
    findLitIdent (d :: p) ((d :: p) ++ X) = some X := by
  rw [findLitIdent]
  show findLitIdentAux (d :: p) ((p ++ X).length + 1) (d :: (p ++ X)) = some X
  rw [findLitIdentAux]
  have h1 : sStarts (d :: (p ++ X)) (d :: p) = true := sStarts_app_self (d :: p) X
  have h2 : (d :: (p ++ X)).drop (d :: p).length = X := List.drop_left (d :: p) X
  rw [if_pos h1, h2, hid]

theorem identOk_no_dot {X : Str} (h : identOk X = true) : '.' ∉ X := by
  cases X with
  | nil => simp
  | cons c rest =>
    rw [identOk, Bool.and_eq_true] at h
    intro hm
    rcases List.mem_cons.mp hm with heq | hm2
    · rw [← heq] at h
      exact absurd h.1 (by decide)
    · have := List.all_eq_true.mp h.2 _ hm2
      exact absurd this (by decide)

theorem markTarget_this {X : Str} (hX : identOk X = true) :
    markTarget (cs "this.custom." ++ X) = some (cs "*.custom." ++ X) := by
  have hXd : '.' ∉ X := identOk_no_dot hX
  have hv1 : sHas (cs "this.custom." ++ X) (cs "view.custom.") = false :=
    sHas_app_false (by decide) (by decide) hXd
  have hv2 : sHas (cs "this.custom." ++ X) (cs "view.params.") = false :=
    sHas_app_false (by decide) (by decide) hXd
  have hhas : sHas (cs "this.custom." ++ X) (cs ".custom.") = true :=
    sHas_app_right (cs "this") (sStarts_app_self (cs ".custom.") X)
  have hst : sStarts (cs "this.custom." ++ X) (cs "this.custom.") = true :=
    sStarts_app_self _ _
  have hfind : findLitIdent (cs ".custom.") (cs "this.custom." ++ X) = some X := by
    have h2 : findLitIdent (cs ".custom.") (cs ".custom." ++ X) = some X :=
      findLitIdent_at (identAfter_of_identOk hX)
    have h1 : findLitIdent (cs ".custom.") (cs "this" ++ (cs ".custom." ++ X)) =
        findLitIdent (cs ".custom.") (cs ".custom." ++ X) :=
      findLitIdent_skip rfl (by decide) _
    exact h1.trans h2
  rw [markTarget, if_neg (by simp [hv1]), if_neg (by simp [hv2]), if_pos hhas,
      if_pos (by simp [hst]), hfind]

theorem markTarget_self {X : Str} (hX : identOk X = true) :
    markTarget (cs "self.custom." ++ X) = some (cs "*.custom." ++ X) := by
  have hXd : '.' ∉ X := identOk_no_dot hX
  have hv1 : sHas (cs "self.custom." ++ X) (cs "view.custom.") = false :=
    sHas_app_false (by decide) (by decide) hXd
  have hv2 : sHas (cs "self.custom." ++ X) (cs "view.params.") = false :=
    sHas_app_false (by decide) (by decide) hXd
  have hhas : sHas (cs "self.custom." ++ X) (cs ".custom.") = true :=
    sHas_app_right (cs "self") (sStarts_app_self (cs ".custom.") X)
  have hst : sStarts (cs "self.custom." ++ X) (cs "self.custom.") = true :=
    sStarts_app_self _ _
  have hfind : findLitIdent (cs ".custom.") (cs "self.custom." ++ X) = some X := by
    have h2 : findLitIdent (cs ".custom.") (cs ".custom." ++ X) = some X :=
      findLitIdent_at (identAfter_of_identOk hX)
    have h1 : findLitIdent (cs ".custom.") (cs "self" ++ (cs ".custom." ++ X)) =
        findLitIdent (cs ".custom.") (cs ".custom." ++ X) :=
      findLitIdent_skip rfl (by decide) _
    exact h1.trans h2
  rw [markTarget, if_neg (by simp [hv1]), if_neg (by simp [hv2]), if_pos hhas,
      if_pos (by simp [hst]), hfind]

theorem isReportedUnused_comp {used : List Str} {c X : Str}
    (hc : '.' ∉ c) (hcv : c ≠ cs "view") (hX : '.' ∉ X)
    (hw : cs "*.custom." ++ X ∈ used) :
    isReportedUnused used (c ++ cs ".custom." ++ X) = false := by
  rw [isReportedUnused]
  by_cases hk : c ++ cs ".custom." ++ X ∈ used
  · rw [if_pos hk]
  · have hcond : sHas (c ++ cs ".custom." ++ X) (cs ".custom.") = true ∧
        ¬ sStarts (c ++ cs ".custom." ++ X) (cs "view.") = true := by
      refine ⟨?_, by rw [sStarts_k_viewdot hc hcv]; simp⟩
      rw [List.append_assoc]
      exact sHas_app_right c (sStarts_app_self _ _)
    rw [if_neg hk, if_pos hcond, pySplit_comp hc hX]
    have hlast : ([c, X] : List Str).getLastD [] = X := rfl
    rw [hlast, if_pos hw]

/-- **C9, counterexample.**  The wildcard match does not apply to every
component-scoped definition.  (1) A component named `view`: the path
`a.view.custom.MyProp` defines the key `view.custom.MyProp`, which takes the
view-level branch of `_search_flattened_json_for_references`, so no
`this.custom.MyProp` pattern is ever searched for, and `finalize`'s wildcard
re-check skips keys starting with `view.`; the property is reported unused
despite the `this.custom.MyProp` reference.  (2) A non-identifier property
name: `a.Btn.custom.my-prop` defines `Btn.custom.my-prop` and the reference
`this.custom.my-prop` is found, but the extraction regex
`\.custom\.([a-zA-Z_][a-zA-Z0-9_]*)` captures only `my`, so the wildcard
recorded is `*.custom.my` and the property is still reported unused. -/
theorem C9_counterexample :
    (buildDefined [cs "a.view.custom.MyProp"] =
        [(cs "view.custom.MyProp", cs "a.view.custom.MyProp")] ∧
      sHas (cs "\x7bthis.custom.MyProp\x7d") (cs "this.custom.MyProp") = true ∧
      (finalizeUnused (buildDefined [cs "a.view.custom.MyProp"])
        (searchFlattened (buildDefined [cs "a.view.custom.MyProp"])
          [(cs "p", Json.str (cs "\x7bthis.custom.MyProp\x7d"))] [])).map Prod.fst =
        [cs "view.custom.MyProp"]) ∧
    (buildDefined [cs "a.Btn.custom.my-prop"] =
        [(cs "Btn.custom.my-prop", cs "a.Btn.custom.my-prop")] ∧
      sHas (cs "\x7bthis.custom.my-prop\x7d") (cs "this.custom.my-prop") = true ∧
      (finalizeUnused (buildDefined [cs "a.Btn.custom.my-prop"])
        (searchFlattened (buildDefined [cs "a.Btn.custom.my-prop"])
          [(cs "p", Json.str (cs "\x7bthis.custom.my-prop\x7d"))] [])).map Prod.fst =
        [cs "Btn.custom.my-prop"]) :=
  ⟨⟨by decide, by decide, by decide⟩, ⟨by decide, by decide, by decide⟩⟩

/-- **C9** (amended).  For a component-scoped definition keyed
`c.custom.X` — `c` the dot-free component name as `visit_property` records
it — whenever some string value of the flattened view contains
`this.custom.X` or `self.custom.X`, the wildcard `*.custom.X` is marked used
by `_search_flattened_json_for_references` and `finalize` does not report the
key, for every component `c` defining a property named `X` — provided `X` is
a Python identifier (otherwise the extraction regex truncates the recorded
wildcard) and `c` is not itself named `view` (otherwise the key takes the
view-level pattern branch and the wildcard re-check is skipped): see
`C9_counterexample` for both failures.  `used0` is the `used_properties`
state the visit phase has already accumulated. -/
theorem C9_wildcard_use (dp : List (Str × Str)) (fm : List (Str × Json))
    (used0 : List Str) (c X loc q s : Str)
    (hkey : (c ++ cs ".custom." ++ X, loc) ∈ dp)
    (hc : '.' ∉ c) (hcv : c ≠ cs "view")
    (hX : identOk X = true)
    (hmem : (q, Json.str s) ∈ fm)
    (href : sHas s (cs "this.custom." ++ X) = true ∨
      sHas s (cs "self.custom." ++ X) = true) :
    cs "*.custom." ++ X ∈ searchFlattened dp fm used0 ∧
    ∀ kv ∈ finalizeUnused dp (searchFlattened dp fm used0),
      kv.1 ≠ c ++ cs ".custom." ++ X := by
  have hXd : '.' ∉ X := identOk_no_dot hX
  have hpf : patternsFor (c ++ cs ".custom." ++ X) =
      [c ++ cs ".custom." ++ X, cs "this.custom." ++ X, cs "self.custom." ++ X] :=
    patternsFor_comp hc hcv hXd
  have hw : cs "*.custom." ++ X ∈ searchFlattened dp fm used0 := by
    rcases href with h | h
    · exact searchFlattened_adds hmem (List.ne_nil_of_mem hkey)
        (List.mem_flatten.mpr ⟨patternsFor (c ++ cs ".custom." ++ X),
          List.mem_map.mpr ⟨(c ++ cs ".custom." ++ X, loc), hkey, rfl⟩,
          by rw [hpf]; exact List.mem_cons_of_mem _ (List.mem_cons_self _ _)⟩)
        h (markTarget_this hX)
    · exact searchFlattened_adds hmem (List.ne_nil_of_mem hkey)
        (List.mem_flatten.mpr ⟨patternsFor (c ++ cs ".custom." ++ X),
          List.mem_map.mpr ⟨(c ++ cs ".custom." ++ X, loc), hkey, rfl⟩,
          by rw [hpf]
             exact List.mem_cons_of_mem _
               (List.mem_cons_of_mem _ (List.mem_cons_self _ _))⟩)
        h (markTarget_self hX)
  refine ⟨hw, ?_⟩
  intro kv hkv heq
  obtain ⟨hkdp, hrep⟩ := List.mem_filter.mp hkv
  rw [heq, isReportedUnused_comp hc hcv hXd hw] at hrep
  cases hrep

/-- The amended round trip at a concrete instance: with one defined
component property `Btn.custom.MyProp` and one flattened string value
containing `this.custom.MyProp`, the wildcard is recorded and nothing about
that key is reported. -/
theorem C9_wildcard_use_witness :
    cs "*.custom." ++ cs "MyProp" ∈
      searchFlattened (buildDefined [cs "root.Btn.custom.MyProp"])
        [(cs "root.props.text", Json.str (cs "x\x7bthis.custom.MyProp\x7dy"))] [] ∧
    ∀ kv ∈ finalizeUnused (buildDefined [cs "root.Btn.custom.MyProp"])
        (searchFlattened (buildDefined [cs "root.Btn.custom.MyProp"])
          [(cs "root.props.text", Json.str (cs "x\x7bthis.custom.MyProp\x7dy"))] []),
      kv.1 ≠ cs "Btn" ++ cs ".custom." ++ cs "MyProp" :=
  C9_wildcard_use (buildDefined [cs "root.Btn.custom.MyProp"])
    [(cs "root.props.text", Json.str (cs "x\x7bthis.custom.MyProp\x7dy"))] []
    (cs "Btn") (cs "MyProp") (cs "root.Btn.custom.MyProp") (cs "root.props.text")
    (cs "x\x7bthis.custom.MyProp\x7dy")
    (by decide) (by decide) (by decide) (by decide) (by decide)
    (Or.inl (by decide))

end IgnitionLint
